import Mathlib

/-!
# kvfile: the sorted key-value adapter over a transactional engine

A shallow embedding of `pkg/index/kvfile/kvfile.go`.

* Go `[]byte` and `string` values are byte sequences (`List (Fin 256)`); the
  conversions `[]byte(s)` and `string(b)` copy the bytes and are the identity
  on the sequence.  A slice that may be `nil` where the code tests for it
  (`val == nil` in `Get`) is an `Option`.
* The engine `kv.DB` and its `kv.Enumerator` are not part of the adapter; the
  adapter is embedded over an arbitrary engine `DB σ ε` (engine state `σ`,
  cursor state `ε`), every call returning its Go results and the next state.
* A Go `error` is `Option GoError` (`none` is `nil`).
* A method that can `panic` returns an `Outcome` together with the state the
  receiver has at that moment.
-/

namespace Kvfile

/-- A Go byte slice, as the sequence of its bytes. -/
abbrev Bytes := List (Fin 256)

/-- A Go string: an immutable sequence of bytes. -/
abbrev GoString := List (Fin 256)

/-- Go `bytes.Compare`: lexicographic comparison of byte sequences; the
result is `-1`, `0` or `1`. -/
def bytesCompare : Bytes → Bytes → Int
  | [], [] => 0
  | [], _ :: _ => -1
  | _ :: _, [] => 1
  | a :: as, b :: bs =>
    if a < b then -1 else if b < a then 1 else bytesCompare as bs

/-- The error values the adapter can see: the sentinels `io.EOF` and
`sorted.ErrNotFound`, the error built by `errors.New("invalid batch type")`,
and any other error value coming out of the engine. -/
inductive GoError where
  | ioEOF
  | ErrNotFound
  | invalidBatchType
  | engine (code : Nat)
  deriving DecidableEq, Repr

/-- The result of a call that may panic. -/
inductive Outcome (α : Type) where
  | ok (a : α)
  | panic (msg : String)
  deriving DecidableEq, Repr

/-- The calls the adapter makes on `*kv.DB` and `*kv.Enumerator`, with the
signatures of the Go methods (the `buf` argument of `Get` and the `hit`
result of `Seek` carry no information the adapter uses, `hit` is kept). -/
structure DB (σ ε : Type) where
  Get : σ → Bytes → (Option Bytes × Option GoError) × σ
  Set : σ → Bytes → Bytes → Option GoError × σ
  Delete : σ → Bytes → Option GoError × σ
  Seek : σ → Bytes → (Option ε × Bool × Option GoError) × σ
  BeginTransaction : σ → Option GoError × σ
  Commit : σ → Option GoError × σ
  Rollback : σ → Option GoError × σ
  EnumNext : ε → (Bytes × Bytes × Option GoError) × ε

/-- The store `kvis`: the file path, the engine handle (here the engine's
state) and the transaction mutex (`true` while locked). -/
structure kvis (σ : Type) where
  path : String
  db : σ
  txmu : Bool
  deriving DecidableEq, Repr

/-- The range iterator `iter`.  The field `db` of the Go struct is only read
by `Find` and is not repeated here. -/
structure iter (ε : Type) where
  startKey : GoString
  endKey : Bytes
  enum : Option ε
  valid : Bool
  key : Bytes
  val : Bytes
  skey : Option GoString
  sval : Option GoString
  err : Option GoError
  closed : Bool
  deriving DecidableEq, Repr

section Store

variable {σ ε : Type}

/-- `(*kvis).Get`. -/
def kvis.Get (db : DB σ ε) (is : kvis σ) (key : GoString) :
    (GoString × Option GoError) × kvis σ :=
  match db.Get is.db key with
  | ((val, err), s) =>
    let is1 := { is with db := s }
    match err with
    | some e => (([], some e), is1)
    | none =>
      match val with
      | none => (([], some GoError.ErrNotFound), is1)
      | some v => ((v, none), is1)

/-- `(*kvis).Set`. -/
def kvis.Set (db : DB σ ε) (is : kvis σ) (key value : GoString) :
    Option GoError × kvis σ :=
  match db.Set is.db key value with
  | (err, s) => (err, { is with db := s })

/-- `(*kvis).Delete`. -/
def kvis.Delete (db : DB σ ε) (is : kvis σ) (key : GoString) :
    Option GoError × kvis σ :=
  match db.Delete is.db key with
  | (err, s) => (err, { is with db := s })

/-- `(*kvis).Find`: the fresh iterator holds whatever `Seek` returned. -/
def kvis.Find (db : DB σ ε) (is : kvis σ) (start end_ : GoString) :
    iter ε × kvis σ :=
  match db.Seek is.db start with
  | ((enum, _, err), s) =>
    ({ startKey := start, endKey := end_, enum := enum, valid := false,
       key := [], val := [], skey := none, sval := none, err := err,
       closed := false },
     { is with db := s })

/-- `(*iter).Close`. -/
def iter.Close (it : iter ε) : Option GoError × iter ε :=
  (it.err, { it with closed := true })

/-- `(*iter).KeyBytes`. -/
def iter.KeyBytes (it : iter ε) : Outcome Bytes × iter ε :=
  if !it.valid then (.panic "not valid", it) else (.ok it.key, it)

/-- `(*iter).Key`. -/
def iter.Key (it : iter ε) : Outcome GoString × iter ε :=
  if !it.valid then (.panic "not valid", it)
  else
    match it.skey with
    | some s => (.ok s, it)
    | none =>
      let str : GoString := it.key
      (.ok str, { it with skey := some str })

/-- `(*iter).ValueBytes`. -/
def iter.ValueBytes (it : iter ε) : Outcome Bytes × iter ε :=
  if !it.valid then (.panic "not valid", it) else (.ok it.val, it)

/-- `(*iter).Value`. -/
def iter.Value (it : iter ε) : Outcome GoString × iter ε :=
  if !it.valid then (.panic "not valid", it)
  else
    match it.sval with
    | some s => (.ok s, it)
    | none =>
      let str : GoString := it.val
      (.ok str, { it with sval := some str })

/-- `(*iter).end`. -/
def iter.end_ (it : iter ε) : Bool × iter ε :=
  (false, { it with valid := false, closed := true })

/-- `(*iter).Next`.  With a `nil` enumerator the call `it.enum.Next()` is a
nil dereference, which panics after the cached strings were cleared. -/
def iter.Next (db : DB σ ε) (it : iter ε) : Outcome Bool × iter ε :=
  if it.err ≠ none then (.ok false, it)
  else if it.closed then (.panic "Next called after Next returned value", it)
  else
    let it1 := { it with skey := none, sval := none }
    match it1.enum with
    | none => (.panic "nil pointer dereference", it1)
    | some en =>
      match db.EnumNext en with
      | ((k, v, err), en1) =>
        let it2 := { it1 with key := k, val := v, enum := some en1 }
        if err = some GoError.ioEOF then
          let r := iter.end_ { it2 with err := none }
          (.ok r.1, r.2)
        else if err ≠ none then
          let r := iter.end_ { it2 with err := err }
          (.ok r.1, r.2)
        else if it2.endKey.length > 0 ∧ bytesCompare it2.key it2.endKey ≥ 0 then
          let r := iter.end_ it2
          (.ok r.1, r.2)
        else
          (.ok true, { it2 with valid := true })

end Store

/-! ## Batches and `CommitBatch` -/

/-- A `sorted.Mutation`: the three methods `Key()`, `Value()`, `IsDelete()`. -/
structure Mutation where
  Key : GoString
  Value : GoString
  IsDelete : Bool
  deriving DecidableEq, Repr

/-- A `sorted.BatchMutation` value: one that also has the method
`Mutations()` (it passes the type assertion `bm.(batch)`), or one that does
not. -/
inductive BatchMutation where
  | batch (Mutations : List Mutation)
  | foreign
  deriving DecidableEq, Repr

/-- `(*kvis).BeginBatch`: `sorted.NewBatchMutation()`, an empty list. -/
def BeginBatch : BatchMutation := .batch []

/-- The effects of `CommitBatch`: the two mutex calls and the engine calls. -/
inductive Act where
  | Lock
  | Unlock
  | BeginTransaction
  | Set (key value : Bytes)
  | Delete (key : Bytes)
  | Commit
  | Rollback
  deriving DecidableEq, Repr

/-- One effect that happened, with the error it returned. -/
structure Event where
  act : Act
  err : Option GoError
  deriving DecidableEq, Repr

/-- A control-flow tree: return, or perform one effect and continue with its
result. -/
inductive Prog where
  | ret (err : Option GoError)
  | call (a : Act) (k : Option GoError → Prog)

/-- The deferred calls of `CommitBatch`, run last-in first-out when the body
returns `r`: the closure that rolls back unless `good`, then
`is.txmu.Unlock()`. -/
def CommitBatch.deferred (good : Bool) (r : Option GoError) : Prog :=
  if !good then
    .call .Rollback fun _ => .call .Unlock fun _ => .ret r
  else
    .call .Unlock fun _ => .ret r

/-- The loop `for _, m := range b.Mutations()` of `CommitBatch`, followed by
`rest`; a failing call returns its error with `good` still false. -/
def CommitBatch.loop (rest : Prog) : List Mutation → Prog
  | [] => rest
  | m :: ms =>
    if m.IsDelete then
      .call (.Delete m.Key) fun err =>
        match err with
        | some e => CommitBatch.deferred false (some e)
        | none => CommitBatch.loop rest ms
    else
      .call (.Set m.Key m.Value) fun err =>
        match err with
        | some e => CommitBatch.deferred false (some e)
        | none => CommitBatch.loop rest ms

/-- The body of `(*kvis).CommitBatch` as a control-flow tree. -/
def CommitBatch.prog (bm : BatchMutation) : Prog :=
  match bm with
  | .foreign => .ret (some GoError.invalidBatchType)
  | .batch ms =>
    .call .Lock fun _ =>
    .call .BeginTransaction fun err =>
      match err with
      | some e => CommitBatch.deferred false (some e)
      | none =>
        CommitBatch.loop
          (.call .Commit fun err => CommitBatch.deferred true err) ms

section Run

variable {σ ε : Type}

/-- The engine call behind an effect (the mutex calls touch no engine). -/
def engineCall (db : DB σ ε) (a : Act) (s : σ) : Option GoError × σ :=
  match a with
  | .BeginTransaction => db.BeginTransaction s
  | .Set k v => db.Set s k v
  | .Delete k => db.Delete s k
  | .Commit => db.Commit s
  | .Rollback => db.Rollback s
  | .Lock => (none, s)
  | .Unlock => (none, s)

/-- One effect on the store.  `none` means the call does not return:
`Lock` on a locked mutex blocks, `Unlock` of an unlocked mutex is a fatal
runtime error. -/
def perform (db : DB σ ε) (a : Act) (is : kvis σ) :
    Option (Option GoError × kvis σ) :=
  match a with
  | .Lock => if is.txmu then none else some (none, { is with txmu := true })
  | .Unlock => if is.txmu then some (none, { is with txmu := false }) else none
  | a => some ((engineCall db a is.db).1, { is with db := (engineCall db a is.db).2 })

/-- Run a control-flow tree to its return on one goroutine: the returned
error, the final store and the effects in the order they happened. -/
def Prog.run (db : DB σ ε) : Prog → kvis σ →
    Option (Option GoError × kvis σ × List Event)
  | .ret r, is => some (r, is, [])
  | .call a k, is =>
    match perform db a is with
    | none => none
    | some (r, is1) =>
      match (k r).run db is1 with
      | none => none
      | some (res, is2, tr) => some (res, is2, ⟨a, r⟩ :: tr)

/-- `(*kvis).CommitBatch`, called on one goroutine. -/
def kvis.CommitBatch (db : DB σ ε) (is : kvis σ) (bm : BatchMutation) :
    Option (Option GoError × kvis σ × List Event) :=
  (CommitBatch.prog bm).run db is

/-- Drive an iterator the way a caller does: call `Next`; while it returns
true read `Key()` and `Value()`; stop at the first `Next` that returns
false.  `none` when the fuel runs out or a call panics. -/
def drain (db : DB σ ε) : Nat → iter ε → Option (List (GoString × GoString))
  | 0, _ => none
  | fuel + 1, it =>
    match iter.Next db it with
    | (.ok true, it1) =>
      match iter.Key it1 with
      | (.ok k, it2) =>
        match iter.Value it2 with
        | (.ok v, it3) =>
          match drain db fuel it3 with
          | some rest => some ((k, v) :: rest)
          | none => none
        | (.panic _, _) => none
      | (.panic _, _) => none
    | (.ok false, _) => some []
    | (.panic _, _) => none

/-- The engine call a mutation is replayed as. -/
def Mutation.act (m : Mutation) : Act :=
  if m.IsDelete then .Delete m.Key else .Set m.Key m.Value

/-- Engine calls made one after the other from engine state `s`, stopping at
the first that fails: the events, the engine state reached and the error of
the failing call, if any. -/
def replayCalls (db : DB σ ε) : σ → List Act → List Event × σ × Option GoError
  | s, [] => ([], s, none)
  | s, a :: as =>
    match engineCall db a s with
    | (some e, s1) => ([⟨a, some e⟩], s1, some e)
    | (none, s1) =>
      match replayCalls db s1 as with
      | (t, s2, r) => (⟨a, none⟩ :: t, s2, r)

/-- What a run of `CommitBatch` amounts to once the mutex is taken and the
calls were replayed: roll back after a failure, commit otherwise. -/
def finish (db : DB σ ε) (p : String) (pre : List Event) :
    List Event × σ × Option GoError → Option (Option GoError × kvis σ × List Event)
  | (t, s1, some e) =>
    some (some e, ⟨p, (db.Rollback s1).2, false⟩,
      pre ++ t ++ [⟨.Rollback, (db.Rollback s1).1⟩, ⟨.Unlock, none⟩])
  | (t, s1, none) =>
    some ((db.Commit s1).1, ⟨p, (db.Commit s1).2, false⟩,
      pre ++ t ++ [⟨.Commit, (db.Commit s1).1⟩, ⟨.Unlock, none⟩])

/-- The calls that open and replay a batch: `BeginTransaction`, `Set`,
`Delete`. -/
def Act.isReplay : Act → Bool
  | .BeginTransaction => true
  | .Set _ _ => true
  | .Delete _ => true
  | _ => false

/-- The number of events of a trace that are calls of `a`. -/
def countAct (a : Act) (tr : List Event) : Nat :=
  tr.countP fun ev => ev.act = a

/-- The engine calls `CommitBatch` makes for a batch when none fails, up to
the commit: `BeginTransaction`, then one `Set` or `Delete` per mutation, in
list order. -/
def batchCalls (ms : List Mutation) : List Act :=
  .BeginTransaction :: ms.map Mutation.act

/-- The event of a call that succeeded. -/
def Event.success (a : Act) : Event := ⟨a, none⟩

/-- The replay step of the commit protocol (spec section 4.1, "replay each
mutation (Set or Delete) against the engine; on the first failure, abort"),
stated directly on the engine's own `Set` and `Delete`: the events, the
engine state reached and the error of the failing call, if any. -/
def engineReplay (db : DB σ ε) : σ → List Mutation → List Event × σ × Option GoError
  | s, [] => ([], s, none)
  | s, m :: ms =>
    match (if m.IsDelete then db.Delete s m.Key else db.Set s m.Key m.Value) with
    | (some e, s1) => ([⟨m.act, some e⟩], s1, some e)
    | (none, s1) =>
      match engineReplay db s1 ms with
      | (t, s2, r) => (⟨m.act, none⟩ :: t, s2, r)

/-- The commit protocol up to the commit (spec section 4.1, "begin an engine
transaction; replay each mutation"), stated directly on the engine's own
`BeginTransaction`, `Set` and `Delete`: the events, the engine state reached
and the error of the first failing call, if any. -/
def afterReplay (db : DB σ ε) (s : σ) (ms : List Mutation) :
    List Event × σ × Option GoError :=
  match db.BeginTransaction s with
  | (some e, s1) => ([⟨.BeginTransaction, some e⟩], s1, some e)
  | (none, s1) =>
    match engineReplay db s1 ms with
    | (t, s2, r) => (⟨.BeginTransaction, none⟩ :: t, s2, r)

/-- A law an engine may satisfy, for what `obs` shows of its state: a
`Rollback` that succeeds, after a `BeginTransaction` that succeeded and any
replayed `Set`/`Delete` calls, shows what was shown before that
`BeginTransaction`. -/
def RollbackUndoes {α : Type} (db : DB σ ε) (obs : σ → α) : Prop :=
  ∀ (s s1 s2 s3 : σ) (ms : List Mutation) (t : List Event) (r : Option GoError),
    db.BeginTransaction s = (none, s1) → engineReplay db s1 ms = (t, s2, r) →
    db.Rollback s2 = (none, s3) → obs s3 = obs s

end Run

/-! ## The engine -/

/-- Modelled from the spec: the engine's `set` on its content (section 6),
insert or overwrite `k` in a key-ordered association list. -/
def refInsert (k v : Bytes) : List (Bytes × Bytes) → List (Bytes × Bytes)
  | [] => [(k, v)]
  | (k1, v1) :: r =>
    if bytesCompare k k1 < 0 then (k, v) :: (k1, v1) :: r
    else if bytesCompare k k1 = 0 then (k, v) :: r
    else (k1, v1) :: refInsert k v r

/-- Modelled from the spec: the engine's `delete` on its content (section 6),
remove `k`; nothing changes when `k` is absent. -/
def refErase (k : Bytes) (d : List (Bytes × Bytes)) : List (Bytes × Bytes) :=
  d.filter fun kv => bytesCompare kv.1 k ≠ 0

/-- Modelled from the spec: the engine's `get` on its content (section 6),
the value stored under `k`, if any. -/
def refLookup (k : Bytes) : List (Bytes × Bytes) → Option Bytes
  | [] => none
  | (k1, v1) :: r => if bytesCompare k1 k = 0 then some v1 else refLookup k r

/-- Modelled from the spec: the external engine `kv.DB` (section 6, "Engine
collaborator contract"), which is not part of the adapter's source.  Its
content `data` is a finite map held in byte-wise key order; `saved` holds the
content at each open `begin_tx`, innermost first; `faults` scripts the I/O
failures of the coming engine calls (one entry per call, `some e` makes that
call fail with `e` and change nothing) and `cursorFaults` those of the
cursors it hands out. -/
structure RefDB where
  data : List (Bytes × Bytes)
  saved : List (List (Bytes × Bytes))
  faults : List (Option GoError)
  cursorFaults : List (Option GoError)
  deriving DecidableEq, Repr

/-- Modelled from the spec: the engine's forward cursor, the entries still to
come and the script of its I/O failures. -/
structure RefEnum where
  rest : List (Bytes × Bytes)
  faults : List (Option GoError)
  deriving DecidableEq, Repr

/-- Modelled from the spec: the I/O failure of the next engine call (the
"error" answer of section 6), as scripted. -/
def RefDB.fault (s : RefDB) : Option GoError :=
  match s.faults with
  | some e :: _ => some e
  | _ => none

/-- Modelled from the spec: the engine after one more call was made (the
script of failures moves on). -/
def RefDB.tick (s : RefDB) : RefDB := { s with faults := s.faults.tail }

/-- Modelled from the spec: the engine operations of section 6.  `get`
answers value, not-found (`nil`) or error; `set` overwrites; `delete` of an
absent key is no error; `seek` places a cursor on the first key `≥ start`;
`cursor.next` gives the next entry, end-of-data or an error; `begin_tx`
opens a transaction, `commit` keeps its writes and `rollback` undoes them.
The spec does not say what `commit` and `rollback` do when no transaction is
open, nor what a failing call leaves behind; here both are an error that
changes nothing, a choice used only where an instance of an engine is
exhibited. -/
def refDB : DB RefDB RefEnum where
  Get s k :=
    match s.fault with
    | some e => ((none, some e), s.tick)
    | none => ((refLookup k s.data, none), s.tick)
  Set s k v :=
    match s.fault with
    | some e => (some e, s.tick)
    | none => (none, { s.tick with data := refInsert k v s.data })
  Delete s k :=
    match s.fault with
    | some e => (some e, s.tick)
    | none => (none, { s.tick with data := refErase k s.data })
  Seek s k :=
    match s.fault with
    | some e => ((none, false, some e), s.tick)
    | none =>
      ((some ⟨s.data.dropWhile (fun kv => bytesCompare kv.1 k < 0), s.cursorFaults⟩,
        (refLookup k s.data).isSome, none), s.tick)
  BeginTransaction s :=
    match s.fault with
    | some e => (some e, s.tick)
    | none => (none, { s.tick with saved := s.data :: s.saved })
  Commit s :=
    match s.fault with
    | some e => (some e, s.tick)
    | none =>
      match s.saved with
      | [] => (some (GoError.engine 0), s.tick)
      | _ :: outer => (none, { s.tick with saved := outer })
  Rollback s :=
    match s.fault with
    | some e => (some e, s.tick)
    | none =>
      match s.saved with
      | [] => (some (GoError.engine 0), s.tick)
      | d :: outer => (none, { s.tick with data := d, saved := outer })
  EnumNext en :=
    match en.faults with
    | some e :: fs => (([], [], some e), { en with faults := fs })
    | _ =>
      match en.rest with
      | [] => (([], [], some GoError.ioEOF), { en with faults := en.faults.tail })
      | (k, v) :: r => ((k, v, none), { rest := r, faults := en.faults.tail })

/-- A store over the engine content `d`, no transaction open, no failure
scripted, mutex free. -/
def refStore (d : List (Bytes × Bytes)) : kvis RefDB :=
  { path := "index.kv", db := ⟨d, [], [], []⟩, txmu := false }

/-- The effect of one mutation on an engine content. -/
def applyMutation (d : List (Bytes × Bytes)) (m : Mutation) : List (Bytes × Bytes) :=
  if m.IsDelete then refErase m.Key d else refInsert m.Key m.Value d

/-- The methods of `iter` a caller can invoke. -/
inductive IterOp where
  | Next
  | Close
  | KeyBytes
  | Key
  | ValueBytes
  | Value
  deriving DecidableEq, Repr

/-- What one method call gave back to the caller. -/
inductive IterRes where
  | next (o : Outcome Bool)
  | close (e : Option GoError)
  | bytes (o : Outcome Bytes)
  | str (o : Outcome GoString)
  deriving DecidableEq, Repr

section Calls

variable {σ ε : Type}

/-- One method call on the iterator. -/
def iter.call (db : DB σ ε) (it : iter ε) : IterOp → IterRes × iter ε
  | .Next => (.next (it.Next db).1, (it.Next db).2)
  | .Close => (.close it.Close.1, it.Close.2)
  | .KeyBytes => (.bytes it.KeyBytes.1, it.KeyBytes.2)
  | .Key => (.str it.Key.1, it.Key.2)
  | .ValueBytes => (.bytes it.ValueBytes.1, it.ValueBytes.2)
  | .Value => (.str it.Value.1, it.Value.2)

/-- A sequence of method calls, one after the other (a panic is recovered by
the caller and leaves the iterator as it was when the panic was raised): the
results in call order and the final iterator. -/
def iter.calls (db : DB σ ε) (it : iter ε) : List IterOp → List IterRes × iter ε
  | [] => ([], it)
  | op :: ops =>
    ((it.call db op).1 :: (iter.calls db (it.call db op).2 ops).1,
      (iter.calls db (it.call db op).2 ops).2)

/-- Whether the most recent `Next` that returned, among the calls made so
far, returned true (`acc` before any of them). -/
def lastNextTrue (acc : Bool) : List IterRes → Bool
  | [] => acc
  | .next (.ok b) :: rs => lastNextTrue b rs
  | _ :: rs => lastNextTrue acc rs

end Calls

/-- Engine content held in strictly ascending byte-wise key order (a finite
map: no key twice). -/
def KeyOrdered (d : List (Bytes × Bytes)) : Prop :=
  d.Pairwise fun a b => bytesCompare a.1 b.1 < 0

/-- The range of `Find(start, end)`: `start ≤ key`, and `key < end` unless
`end` is empty. -/
def inRange (start end_ : GoString) (kv : Bytes × Bytes) : Bool :=
  decide (bytesCompare start kv.1 ≤ 0 ∧ (end_ = [] ∨ bytesCompare kv.1 end_ < 0))

/-! ## Goroutines calling `CommitBatch` on one store -/

section Goroutines

variable {σ ε : Type}

/-- Several goroutines, each somewhere inside a call on the same store:
the store, what is left of each goroutine's call, and the effects so far,
newest first, each tagged with the goroutine that made it. -/
structure Conc (σ : Type) where
  is : kvis σ
  progs : List Prog
  log : List (Nat × Event)

/-- Goroutine `i` makes its next effect.  Nothing happens when it has
returned, or when its next effect does not return now (`Lock` on the locked
mutex): it stays where it is. -/
def Conc.step (db : DB σ ε) (c : Conc σ) (i : Nat) : Conc σ :=
  match c.progs[i]? with
  | some (.call a k) =>
    match perform db a c.is with
    | some (r, is1) =>
      { is := is1, progs := c.progs.set i (k r), log := (i, ⟨a, r⟩) :: c.log }
    | none => c
  | _ => c

/-- The goroutines run interleaved as the schedule says. -/
def Conc.exec (db : DB σ ε) (c : Conc σ) (sched : List Nat) : Conc σ :=
  sched.foldl (Conc.step db) c

end Goroutines

/-- The goroutine that holds the mutex after the logged effects (newest
first): the one whose `Lock` is the most recent mutex call, if any. -/
def holder : List (Nat × Event) → Option Nat
  | [] => none
  | (i, ev) :: l =>
    match ev.act with
    | .Lock => some i
    | .Unlock => none
    | _ => holder l

/-- Every logged effect happened under the mutex: a `Lock` when nobody held
it, every other effect (engine call or `Unlock`) while the goroutine making
it held it. -/
def Exclusive : List (Nat × Event) → Prop
  | [] => True
  | (i, ev) :: l =>
    Exclusive l ∧ if ev.act = .Lock then holder l = none else holder l = some i

/-- A goroutine inside the critical section: engine calls only, then one
`Unlock`, then the return. -/
inductive Holding : Prog → Prop
  | engine (a : Act) (k : Option GoError → Prog) :
      a ≠ .Lock → a ≠ .Unlock → (∀ r, Holding (k r)) → Holding (.call a k)
  | unlock (k : Option GoError → Prog) :
      (∀ r, ∃ e, k r = .ret e) → Holding (.call .Unlock k)

/-- A goroutine outside the critical section: it has returned, or its next
effect is the `Lock` that enters it. -/
def Idle (p : Prog) : Prop :=
  (∃ e, p = .ret e) ∨ ∃ k, p = .call .Lock k ∧ ∀ r, Holding (k r)

/-- What holds between the mutex, the log and the goroutines at every
moment. -/
def MutexInv {σ : Type} (c : Conc σ) : Prop :=
  c.is.txmu = (holder c.log).isSome ∧
  (∀ i p, c.progs[i]? = some p → if holder c.log = some i then Holding p else Idle p) ∧
  Exclusive c.log

/-! ## Example data -/

/-- The content `{a:1, b:2, c:3, d:4}` (keys and values as ASCII bytes). -/
def abcd : List (Bytes × Bytes) :=
  [([97], [49]), ([98], [50]), ([99], [51]), ([100], [52])]

/-- The batch `[Set(a,1), Delete(b), Set(a,2)]`. -/
def exampleBatch : List Mutation :=
  [⟨[97], [49], false⟩, ⟨[98], [], true⟩, ⟨[97], [50], false⟩]

/-- A store holding `{b:9}` whose engine fails the calls the script says. -/
def scriptedStore (faults : List (Option GoError)) : kvis RefDB :=
  { path := "index.kv", db := ⟨[([98], [57])], [], faults, []⟩, txmu := false }

/-- The trace of the example batch when its `Delete` fails. -/
def rolledBackTrace : List Event :=
  [⟨.Lock, none⟩, ⟨.BeginTransaction, none⟩, ⟨.Set [97] [49], none⟩,
   ⟨.Delete [98], some (.engine 7)⟩, ⟨.Rollback, none⟩, ⟨.Unlock, none⟩]

section CommitBatchLemmas

variable {σ ε : Type}

theorem loop_cons (rest : Prog) (m : Mutation) (ms : List Mutation) :
    CommitBatch.loop rest (m :: ms) =
      .call m.act fun err =>
        match err with
        | some e => CommitBatch.deferred false (some e)
        | none => CommitBatch.loop rest ms := by
  unfold Mutation.act
  cases h : m.IsDelete <;> simp [CommitBatch.loop, h]

theorem perform_engine (db : DB σ ε) (a : Act) (is : kvis σ)
    (h1 : a ≠ .Lock) (h2 : a ≠ .Unlock) :
    perform db a is =
      some ((engineCall db a is.db).1, { is with db := (engineCall db a is.db).2 }) := by
  cases a <;> simp_all [perform]

theorem run_deferred_false (db : DB σ ε) (p : String) (s : σ) (r : Option GoError) :
    (CommitBatch.deferred false r).run db ⟨p, s, true⟩ =
      some (r, ⟨p, (db.Rollback s).2, false⟩,
        [⟨.Rollback, (db.Rollback s).1⟩, ⟨.Unlock, none⟩]) := by
  simp [CommitBatch.deferred, Prog.run, perform, engineCall]

theorem run_deferred_true (db : DB σ ε) (p : String) (s : σ) (r : Option GoError) :
    (CommitBatch.deferred true r).run db ⟨p, s, true⟩ =
      some (r, ⟨p, s, false⟩, [⟨.Unlock, none⟩]) := by
  simp [CommitBatch.deferred, Prog.run, perform]

theorem run_loop (db : DB σ ε) (p : String) (ms : List Mutation) :
    ∀ s : σ,
      (CommitBatch.loop (.call .Commit fun err => CommitBatch.deferred true err) ms).run db
          ⟨p, s, true⟩ =
        finish db p [] (replayCalls db s (ms.map Mutation.act)) := by
  induction ms with
  | nil =>
    intro s
    simp [CommitBatch.loop, Prog.run, perform, engineCall, replayCalls, finish,
      run_deferred_true]
  | cons m ms ih =>
    intro s
    have hL : m.act ≠ .Lock := by unfold Mutation.act; split <;> simp
    have hU : m.act ≠ .Unlock := by unfold Mutation.act; split <;> simp
    rw [loop_cons, Prog.run, perform_engine db _ _ hL hU]
    simp only [List.map_cons, replayCalls]
    rcases hc : engineCall db m.act s with ⟨_ | e, s1⟩
    · simp only [ih]
      rcases hr : replayCalls db s1 (ms.map Mutation.act) with ⟨t, s2, _ | e⟩ <;>
        simp [finish]
    · simp [run_deferred_false, finish]

theorem commitBatch_eq (db : DB σ ε) (is : kvis σ) (ms : List Mutation)
    (h : is.txmu = false) :
    kvis.CommitBatch db is (.batch ms) =
      finish db is.path [⟨.Lock, none⟩] (replayCalls db is.db (batchCalls ms)) := by
  obtain ⟨p, s, mu⟩ := is
  obtain rfl : mu = false := h
  simp only [kvis.CommitBatch, CommitBatch.prog, Prog.run, perform, replayCalls]
  rcases hc : engineCall db .BeginTransaction s with ⟨_ | e, s1⟩
  · simp only [run_loop]
    rcases hr : replayCalls db s1 (ms.map Mutation.act) with ⟨t, s2, _ | e⟩ <;>
      simp [finish]
  · simp [run_deferred_false, finish]

end CommitBatchLemmas

section ReplayLemmas

variable {σ ε : Type}

theorem replayCalls_none (db : DB σ ε) (as : List Act) :
    ∀ (s s2 : σ) (t : List Event), replayCalls db s as = (t, s2, none) →
      t = as.map Event.success := by
  induction as with
  | nil => intro s s2 t h; simp [replayCalls] at h; simp [h.1]
  | cons a as ih =>
    intro s s2 t h
    rcases hc : engineCall db a s with ⟨_ | e, s1⟩
    · rcases hr : replayCalls db s1 as with ⟨t1, s3, r⟩
      simp only [replayCalls, hc, hr, Prod.mk.injEq] at h
      obtain ⟨rfl, rfl, rfl⟩ := h
      simp [ih s1 s3 t1 hr, Event.success]
    · simp [replayCalls, hc] at h

theorem replayCalls_some (db : DB σ ε) (as : List Act) :
    ∀ (s s2 : σ) (t : List Event) (e : GoError), replayCalls db s as = (t, s2, some e) →
      ∃ pre a post, as = pre ++ a :: post ∧
        t = pre.map Event.success ++ [⟨a, some e⟩] := by
  induction as with
  | nil => intro s s2 t e h; simp [replayCalls] at h
  | cons a as ih =>
    intro s s2 t e h
    rcases hc : engineCall db a s with ⟨_ | e1, s1⟩
    · rcases hr : replayCalls db s1 as with ⟨t1, s3, r⟩
      simp only [replayCalls, hc, hr, Prod.mk.injEq] at h
      obtain ⟨rfl, rfl, rfl⟩ := h
      obtain ⟨pre, b, post, rfl, rfl⟩ := ih s1 s3 t1 e hr
      exact ⟨a :: pre, b, post, by simp, by simp [Event.success]⟩
    · simp only [replayCalls, hc, Prod.mk.injEq, Option.some.injEq] at h
      obtain ⟨rfl, rfl, rfl⟩ := h
      exact ⟨[], a, as, by simp, by simp⟩

theorem batchCalls_isReplay (ms : List Mutation) :
    ∀ a ∈ batchCalls ms, a.isReplay = true := by
  intro a ha
  simp only [batchCalls, List.mem_cons, List.mem_map] at ha
  rcases ha with rfl | ⟨m, _, rfl⟩
  · rfl
  · unfold Mutation.act; split <;> rfl

theorem countAct_success (b : Act) (as : List Act) (hb : b.isReplay = false)
    (has : ∀ a ∈ as, a.isReplay = true) :
    countAct b (as.map Event.success) = 0 := by
  simp only [countAct, List.countP_eq_zero, List.mem_map, decide_eq_true_eq]
  rintro ev ⟨a, ha, rfl⟩ h
  simp only [Event.success] at h
  subst h
  rw [has _ ha] at hb
  cases hb

theorem engineCall_act (db : DB σ ε) (m : Mutation) (s : σ) :
    engineCall db m.act s =
      if m.IsDelete then db.Delete s m.Key else db.Set s m.Key m.Value := by
  unfold Mutation.act
  cases m.IsDelete <;> simp [engineCall]

theorem replayCalls_map_act (db : DB σ ε) (ms : List Mutation) :
    ∀ s : σ, replayCalls db s (ms.map Mutation.act) = engineReplay db s ms := by
  induction ms with
  | nil => intro s; rfl
  | cons m ms ih =>
    intro s
    simp only [List.map_cons, replayCalls, engineReplay, engineCall_act, ih]

theorem replayCalls_batchCalls (db : DB σ ε) (s : σ) (ms : List Mutation) :
    replayCalls db s (batchCalls ms) = afterReplay db s ms := by
  simp only [batchCalls, replayCalls, afterReplay, engineCall, replayCalls_map_act]

end ReplayLemmas

section CommitBatchTheorems

variable {σ ε : Type}

theorem countAct_cons (b : Act) (ev : Event) (tr : List Event) :
    countAct b (ev :: tr) = countAct b tr + if ev.act = b then 1 else 0 := by
  simp [countAct, List.countP_cons]

theorem countAct_append (b : Act) (t1 t2 : List Event) :
    countAct b (t1 ++ t2) = countAct b t1 + countAct b t2 := by
  simp [countAct, List.countP_append]

theorem countAct_nil (b : Act) : countAct b [] = 0 := rfl

/-- C10: a batch that passes the type check makes `CommitBatch` invoke
exactly one of the engine's `Commit` and `Rollback`, once: `Commit` exactly
when the engine's `BeginTransaction` and every replayed `Set`/`Delete`
succeeded (all of them were replayed, in order); then the result of the
engine's `Commit` is returned and the engine is left as that `Commit` left
it.  Otherwise replay stops at the first failing engine call, the engine's
`Rollback` is invoked on the state that call left, the engine is left as that
`Rollback` left it, and the error of the failing call is returned.  A batch
that fails the type check causes no effect at all and leaves the store
untouched. -/
theorem commitBatch_commit_xor_rollback (db : DB σ ε) (is : kvis σ)
    (ms : List Mutation) (h : is.txmu = false) :
    (∃ r is1 tr, kvis.CommitBatch db is (.batch ms) = some (r, is1, tr) ∧
      countAct .Commit tr + countAct .Rollback tr = 1 ∧
      (countAct .Commit tr = 1 ↔ ∀ ev ∈ tr, ev.act.isReplay = true → ev.err = none) ∧
      (countAct .Commit tr = 1 →
        tr = ⟨.Lock, none⟩ :: (batchCalls ms).map Event.success ++
          [⟨.Commit, r⟩, ⟨.Unlock, none⟩]) ∧
      (countAct .Rollback tr = 1 →
        ∃ pre a post e r1, batchCalls ms = pre ++ a :: post ∧ r = some e ∧
          tr = ⟨.Lock, none⟩ :: pre.map Event.success ++
            [⟨a, some e⟩, ⟨.Rollback, r1⟩, ⟨.Unlock, none⟩]) ∧
      (countAct .Commit tr = 1 ↔ (afterReplay db is.db ms).2.2 = none) ∧
      ((afterReplay db is.db ms).2.2 = none →
        r = (db.Commit (afterReplay db is.db ms).2.1).1 ∧
        is1 = ⟨is.path, (db.Commit (afterReplay db is.db ms).2.1).2, false⟩ ∧
        tr = ⟨.Lock, none⟩ :: (afterReplay db is.db ms).1 ++
          [⟨.Commit, (db.Commit (afterReplay db is.db ms).2.1).1⟩, ⟨.Unlock, none⟩]) ∧
      (∀ e, (afterReplay db is.db ms).2.2 = some e →
        r = some e ∧
        is1 = ⟨is.path, (db.Rollback (afterReplay db is.db ms).2.1).2, false⟩ ∧
        tr = ⟨.Lock, none⟩ :: (afterReplay db is.db ms).1 ++
          [⟨.Rollback, (db.Rollback (afterReplay db is.db ms).2.1).1⟩, ⟨.Unlock, none⟩])) ∧
    kvis.CommitBatch db is .foreign = some (some .invalidBatchType, is, []) := by
  refine ⟨?_, by simp [kvis.CommitBatch, CommitBatch.prog, Prog.run]⟩
  rw [commitBatch_eq db is ms h]
  rcases hr : replayCalls db is.db (batchCalls ms) with ⟨t, s2, _ | e⟩
  · have ht := replayCalls_none db _ _ _ _ hr
    subst ht
    have har : afterReplay db is.db ms = ((batchCalls ms).map Event.success, s2, none) :=
      (replayCalls_batchCalls db is.db ms).symm.trans hr
    have hrep := batchCalls_isReplay ms
    have c1 := countAct_success .Commit (batchCalls ms) rfl hrep
    have c2 := countAct_success .Rollback (batchCalls ms) rfl hrep
    refine ⟨_, _, _, by simp only [batchCalls] at hr; simp only [hr, finish]; rfl,
      ?_, ?_, ?_, ?_, ?_, ?_, ?_⟩
    · simp [countAct_cons, countAct_append, countAct_nil, c1, c2]
    · simp only [List.cons_append, List.nil_append, countAct_cons, countAct_append,
        countAct_nil, c1]
      simp only [reduceCtorEq, if_false, if_true, true_iff]
      intro ev hev hre
      simp only [List.mem_cons, List.mem_append, List.mem_map, List.mem_singleton,
        List.not_mem_nil, or_false] at hev
      rcases hev with rfl | ⟨a, _, rfl⟩ | rfl | rfl
      · rfl
      · rfl
      · cases hre
      · rfl
    · intro _; simp
    · intro hc
      simp [countAct_cons, countAct_append, countAct_nil, c2] at hc
    · rw [har]
      simp [countAct_cons, countAct_append, countAct_nil, c1]
    · intro _
      rw [har]
      simp
    · intro e he
      rw [har] at he
      cases he
  · obtain ⟨pre, a, post, hsplit, rfl⟩ := replayCalls_some db _ _ _ _ _ hr
    have har : afterReplay db is.db ms =
        (pre.map Event.success ++ [⟨a, some e⟩], s2, some e) :=
      (replayCalls_batchCalls db is.db ms).symm.trans hr
    have hrep := batchCalls_isReplay ms
    have hpre : ∀ b ∈ pre, b.isReplay = true := fun b hb =>
      hrep b (by rw [hsplit]; simp [hb])
    have ha : a.isReplay = true := hrep a (by rw [hsplit]; simp)
    have c1 := countAct_success .Commit pre rfl hpre
    have c2 := countAct_success .Rollback pre rfl hpre
    have ha1 : a ≠ .Commit := by rintro rfl; cases ha
    have ha2 : a ≠ .Rollback := by rintro rfl; cases ha
    have hcount : countAct .Commit ([⟨.Lock, none⟩] ++
        (pre.map Event.success ++ [⟨a, some e⟩]) ++
        [⟨.Rollback, (db.Rollback s2).1⟩, ⟨.Unlock, none⟩]) = 0 := by
      simp [countAct_cons, countAct_append, countAct_nil, c1, ha1]
    refine ⟨_, _, _, by simp only [batchCalls] at hr; simp only [hr, finish]; rfl,
      ?_, ?_, ?_, ?_, ?_, ?_, ?_⟩
    · simp [countAct_cons, countAct_append, countAct_nil, c1, c2, ha1, ha2]
    · rw [hcount]
      simp only [zero_ne_one, false_iff, not_forall]
      exact ⟨⟨a, some e⟩, by simp, ha, by simp⟩
    · intro hc
      rw [hcount] at hc
      cases hc
    · intro _
      exact ⟨pre, a, post, e, (db.Rollback s2).1, hsplit, rfl, by simp⟩
    · rw [hcount, har]
      simp
    · intro he
      rw [har] at he
      cases he
    · intro e1 he
      rw [har] at he ⊢
      simp only [Option.some.injEq] at he
      subst he
      simp

end CommitBatchTheorems

section EngineLemmas

theorem bytesCompare_eq_zero (a b : Bytes) : bytesCompare a b = 0 ↔ a = b := by
  induction a generalizing b with
  | nil => cases b <;> simp [bytesCompare]
  | cons x xs ih =>
    cases b with
    | nil => simp [bytesCompare]
    | cons y ys =>
      simp only [bytesCompare, List.cons.injEq]
      by_cases h1 : x < y
      · simp [h1, ne_of_lt h1]
      · by_cases h2 : y < x
        · simp [h1, h2, ne_of_gt h2]
        · have : x = y := le_antisymm (not_lt.mp h2) (not_lt.mp h1)
          simp [h1, h2, this, ih]

theorem refLookup_insert (k v j : Bytes) (d : List (Bytes × Bytes)) :
    refLookup j (refInsert k v d) = if k = j then some v else refLookup j d := by
  induction d with
  | nil => simp [refInsert, refLookup, bytesCompare_eq_zero]
  | cons kv r ih =>
    obtain ⟨k1, v1⟩ := kv
    simp only [refInsert]
    by_cases h1 : bytesCompare k k1 < 0
    · simp [h1, refLookup, bytesCompare_eq_zero]
    · by_cases h2 : bytesCompare k k1 = 0
      · have hk : k = k1 := (bytesCompare_eq_zero _ _).1 h2
        subst hk
        simp only [h1, h2, if_false, if_true, refLookup, bytesCompare_eq_zero]
        by_cases h3 : k = j <;> simp [h3]
      · have hk : ¬ k = k1 := fun h => h2 ((bytesCompare_eq_zero _ _).2 h)
        simp only [h1, h2, if_false, refLookup, bytesCompare_eq_zero, ih]
        by_cases h3 : k1 = j
        · have : ¬ k = j := fun h => hk (h.trans h3.symm)
          simp [h3, this]
        · simp [h3]

/-- One replayed mutation on the engine: it fails by script and changes
nothing, or it succeeds and applies the mutation. -/
theorem refDB_mutation (s : RefDB) (m : Mutation) :
    (∃ e, s.fault = some e ∧ engineCall refDB m.act s = (some e, s.tick)) ∨
    (s.fault = none ∧
      engineCall refDB m.act s = (none, { s.tick with data := applyMutation s.data m })) := by
  unfold Mutation.act applyMutation
  rcases hf : s.fault with _ | e
  · right
    cases hd : m.IsDelete <;> simp [engineCall, refDB, hf]
  · left
    cases hd : m.IsDelete <;> simp [engineCall, refDB, hf]

/-- Replaying mutations never opens or closes a transaction, and when no
call fails the content reached is the fold of the mutations. -/
theorem refDB_replay (ms : List Mutation) :
    ∀ (s s2 : RefDB) (t : List Event) (r : Option GoError),
      replayCalls refDB s (ms.map Mutation.act) = (t, s2, r) →
        s2.saved = s.saved ∧ (r = none → s2.data = ms.foldl applyMutation s.data) := by
  induction ms with
  | nil =>
    intro s s2 t r h
    simp only [List.map_nil, replayCalls, Prod.mk.injEq] at h
    obtain ⟨_, rfl, _⟩ := h
    simp
  | cons m ms ih =>
    intro s s2 t r h
    rcases refDB_mutation s m with ⟨e, _, hc⟩ | ⟨_, hc⟩
    · simp only [List.map_cons, replayCalls, hc, Prod.mk.injEq] at h
      obtain ⟨_, rfl, rfl⟩ := h
      simp [RefDB.tick]
    · rcases hr : replayCalls refDB { s.tick with data := applyMutation s.data m }
        (ms.map Mutation.act) with ⟨t1, s3, r1⟩
      simp only [List.map_cons, replayCalls, hc, hr, Prod.mk.injEq] at h
      obtain ⟨_, rfl, rfl⟩ := h
      have := ih _ _ _ _ hr
      simpa [RefDB.tick] using this

end EngineLemmas

section OrderLemmas

theorem bytesCompare_swap (a b : Bytes) : bytesCompare b a = - bytesCompare a b := by
  induction a generalizing b with
  | nil => cases b <;> simp [bytesCompare]
  | cons x xs ih =>
    cases b with
    | nil => simp [bytesCompare]
    | cons y ys =>
      simp only [bytesCompare]
      by_cases h1 : x < y
      · have h2 : ¬ y < x := not_lt.mpr (le_of_lt h1)
        simp [h1, h2]
      · by_cases h2 : y < x
        · simp [h1, h2]
        · simp [h1, h2, ih]

theorem bytesCompare_lt_trans (a b c : Bytes)
    (h1 : bytesCompare a b < 0) (h2 : bytesCompare b c < 0) : bytesCompare a c < 0 := by
  induction a generalizing b c with
  | nil =>
    cases c with
    | nil => cases b <;> simp [bytesCompare] at h1 h2
    | cons z zs => simp [bytesCompare]
  | cons x xs ih =>
    cases b with
    | nil => simp [bytesCompare] at h1
    | cons y ys =>
      cases c with
      | nil => simp [bytesCompare] at h2
      | cons z zs =>
        simp only [bytesCompare] at h1 h2 ⊢
        by_cases hxy : x < y
        · by_cases hyz : y < z
          · simp [lt_trans hxy hyz]
          · by_cases hzy : z < y
            · simp [hyz, hzy] at h2
            · have : y = z := le_antisymm (not_lt.mp hzy) (not_lt.mp hyz)
              subst this
              simp [hxy]
        · by_cases hyx : y < x
          · simp [hxy, hyx] at h1
          · have : x = y := le_antisymm (not_lt.mp hyx) (not_lt.mp hxy)
            subst this
            simp only [hxy, if_false] at h1
            by_cases hyz : x < z
            · simp [hyz]
            · by_cases hzy : z < x
              · simp [hyz, hzy] at h2
              · simp only [hyz, hzy, if_false] at h2 ⊢
                exact ih _ _ h1 h2

/-- On key-ordered content, skipping the keys below `start` and then reading
up to the first key at or past a non-empty `end` selects the range. -/
theorem takeWhile_dropWhile_eq_filter (start end_ : GoString) (d : List (Bytes × Bytes))
    (hd : KeyOrdered d) :
    (d.dropWhile fun kv => decide (bytesCompare kv.1 start < 0)).takeWhile
        (fun kv => !decide (end_.length > 0 ∧ bytesCompare kv.1 end_ ≥ 0)) =
      d.filter (inRange start end_) := by
  have hrange : ∀ kv : Bytes × Bytes, inRange start end_ kv =
      (!decide (bytesCompare kv.1 start < 0) &&
        !decide (end_.length > 0 ∧ bytesCompare kv.1 end_ ≥ 0)) := by
    intro kv
    have h1 := bytesCompare_swap kv.1 start
    rw [Bool.eq_iff_iff]
    simp only [inRange, decide_eq_true_eq, Bool.and_eq_true, Bool.not_eq_true',
      decide_eq_false_iff_not, not_lt, not_and, ge_iff_le, gt_iff_lt, not_le,
      List.length_pos]
    constructor
    · rintro ⟨h2, h3⟩
      refine ⟨by omega, fun hne => ?_⟩
      rcases h3 with h3 | h3
      · exact absurd h3 hne
      · exact h3
    · rintro ⟨h2, h3⟩
      refine ⟨by omega, ?_⟩
      by_cases he : end_ = []
      · exact .inl he
      · exact .inr (h3 he)
  unfold KeyOrdered at hd
  induction d with
  | nil => simp
  | cons x r ih =>
    rw [List.pairwise_cons] at hd
    obtain ⟨hx, hr⟩ := hd
    by_cases h1 : bytesCompare x.1 start < 0
    · simp only [List.dropWhile_cons, h1, decide_True, if_true, ih hr, List.filter_cons,
        hrange x, Bool.not_true, Bool.false_and, Bool.false_eq_true, if_false]
    · -- from here on nothing is skipped
      have hdrop : ∀ l : List (Bytes × Bytes), (∀ y ∈ l, bytesCompare x.1 y.1 < 0) →
          l.dropWhile (fun kv => decide (bytesCompare kv.1 start < 0)) = l := by
        intro l hl
        cases l with
        | nil => rfl
        | cons y l =>
          have hy : ¬ bytesCompare y.1 start < 0 := fun hy =>
            h1 (bytesCompare_lt_trans _ _ _ (hl y (by simp)) hy)
          simp [List.dropWhile_cons, hy]
      have hih := ih hr
      rw [hdrop r hx] at hih
      simp only [List.dropWhile_cons, h1, decide_False, Bool.false_eq_true, if_false]
      by_cases h2 : end_.length > 0 ∧ bytesCompare x.1 end_ ≥ 0
      · -- the first key read is already past the bound: so are all later keys
        have hnone : ∀ y ∈ r, inRange start end_ y = false := by
          intro y hy
          rw [hrange y]
          have : bytesCompare y.1 end_ ≥ 0 := by
            by_contra hlt
            have := bytesCompare_lt_trans _ _ _ (hx y hy) (not_le.mp hlt)
            omega
          simp [h2.1, this]
        have hf : r.filter (inRange start end_) = [] := by
          rw [List.filter_eq_nil_iff]
          intro y hy
          simp [hnone y hy]
        simp only [List.takeWhile_cons, h2, and_self, decide_True, Bool.not_true,
          Bool.false_eq_true, if_false, List.filter_cons, hrange x, h1, decide_False,
          Bool.not_false, Bool.and_false, hf]
      · simp only [List.takeWhile_cons, h2, decide_False, Bool.not_false, if_true,
          List.filter_cons, hrange x, h1, Bool.and_self, hih]

end OrderLemmas

section EngineOrder

end EngineOrder

section BatchOnEngine

theorem commitBatch_locked {σ ε : Type} (db : DB σ ε) (is : kvis σ) (ms : List Mutation)
    (h : is.txmu = true) : kvis.CommitBatch db is (.batch ms) = none := by
  simp [kvis.CommitBatch, CommitBatch.prog, Prog.run, perform, h]

theorem commitBatch_free {σ ε : Type} (db : DB σ ε) (is : kvis σ) (ms : List Mutation)
    (res : Option GoError × kvis σ × List Event)
    (h : kvis.CommitBatch db is (.batch ms) = some res) : is.txmu = false := by
  cases hmu : is.txmu with
  | false => rfl
  | true => rw [commitBatch_locked db is ms hmu] at h; cases h

end BatchOnEngine

section BatchTheorems

theorem replayCalls_acts {σ ε : Type} (db : DB σ ε) (as : List Act) :
    ∀ (s s2 : σ) (t : List Event) (r : Option GoError),
      replayCalls db s as = (t, s2, r) → ∀ ev ∈ t, ev.act ∈ as := by
  intro s s2 t r h ev hev
  rcases r with _ | e
  · have := replayCalls_none db as s s2 t h
    subst this
    simp only [List.mem_map] at hev
    obtain ⟨a, ha, rfl⟩ := hev
    exact ha
  · obtain ⟨pre, a, post, rfl, rfl⟩ := replayCalls_some db as s s2 t e h
    simp only [List.mem_append, List.mem_map, List.mem_singleton] at hev
    rcases hev with ⟨b, hb, rfl⟩ | rfl
    · simp [Event.success, hb]
    · simp

/-- The engine satisfies the rollback law for its content: opening a
transaction saves the content, replayed calls leave the saved content alone,
and a successful `Rollback` puts it back. -/
theorem refDB_rollbackUndoes : RollbackUndoes refDB RefDB.data := by
  intro s s1 s2 s3 ms t r hb hrp hrb
  have hs1 : s1.saved = s.data :: s.saved := by
    simp only [refDB] at hb
    rcases hf : s.fault with _ | e
    · simp only [hf, Prod.mk.injEq, true_and] at hb
      rw [← hb]
    · simp [hf] at hb
  rw [← replayCalls_map_act] at hrp
  obtain ⟨hsv, -⟩ := refDB_replay ms _ _ _ _ hrp
  rw [hs1] at hsv
  simp only [refDB] at hrb
  rcases hf : s2.fault with _ | e
  · simp only [hf, hsv, Prod.mk.injEq, true_and] at hrb
    rw [← hrb]
  · simp [hf] at hrb

/-- C2 (amended): when `CommitBatch` returns an error `e`, either
`BeginTransaction` or a replayed `Set`/`Delete` failed with `e`, and then the
engine's `Rollback` is invoked once, right after the failing call, before the
mutex is released and `e` is returned; its own result is discarded and the
engine is left exactly as that `Rollback` call left it.  Or `Commit` failed
with `e`, and then `Rollback` is not invoked and the engine is left as that
`Commit` call left it.  Hence, for every engine whose successful `Rollback`
undoes what was done since the matching successful `BeginTransaction`, a
failure of a replayed `Set`/`Delete` followed by a successful `Rollback`
leaves the engine showing what it showed before the call. -/
theorem commitBatch_failure_rollback {σ ε : Type} (db : DB σ ε) (is is1 : kvis σ)
    (ms : List Mutation) (e : GoError) (tr : List Event)
    (h : kvis.CommitBatch db is (.batch ms) = some (some e, is1, tr)) :
    (((∃ pre a post r1, batchCalls ms = pre ++ a :: post ∧
          tr = ⟨.Lock, none⟩ :: pre.map Event.success ++
            [⟨a, some e⟩, ⟨.Rollback, r1⟩, ⟨.Unlock, none⟩]) ∧
        countAct .Rollback tr = 1 ∧ countAct .Commit tr = 0) ∨
      (tr = ⟨.Lock, none⟩ :: (batchCalls ms).map Event.success ++
          [⟨.Commit, some e⟩, ⟨.Unlock, none⟩] ∧
        countAct .Rollback tr = 0 ∧ countAct .Commit tr = 1)) ∧
    (countAct .Commit tr = 0 →
      (afterReplay db is.db ms).2.2 = some e ∧
      is1 = ⟨is.path, (db.Rollback (afterReplay db is.db ms).2.1).2, false⟩ ∧
      tr = ⟨.Lock, none⟩ :: (afterReplay db is.db ms).1 ++
        [⟨.Rollback, (db.Rollback (afterReplay db is.db ms).2.1).1⟩, ⟨.Unlock, none⟩]) ∧
    (countAct .Commit tr = 1 →
      (afterReplay db is.db ms).2.2 = none ∧
      (db.Commit (afterReplay db is.db ms).2.1).1 = some e ∧
      is1 = ⟨is.path, (db.Commit (afterReplay db is.db ms).2.1).2, false⟩ ∧
      tr = ⟨.Lock, none⟩ :: (afterReplay db is.db ms).1 ++
        [⟨.Commit, some e⟩, ⟨.Unlock, none⟩]) ∧
    ∀ {α : Type} (obs : σ → α), RollbackUndoes db obs →
      (db.BeginTransaction is.db).1 = none →
      (afterReplay db is.db ms).2.2 = some e →
      (db.Rollback (afterReplay db is.db ms).2.1).1 = none →
      obs is1.db = obs is.db := by
  have hmu := commitBatch_free db is ms _ h
  rw [commitBatch_eq db is ms hmu] at h
  have hrep := batchCalls_isReplay ms
  rcases hr : replayCalls db is.db (batchCalls ms) with ⟨t, s2, _ | e2⟩
  · have ht := replayCalls_none db _ _ _ _ hr
    subst ht
    have har : afterReplay db is.db ms = ((batchCalls ms).map Event.success, s2, none) :=
      (replayCalls_batchCalls db is.db ms).symm.trans hr
    rw [hr] at h
    simp only [finish, Option.some.injEq, Prod.mk.injEq] at h
    obtain ⟨hc, rfl, rfl⟩ := h
    have c1 := countAct_success .Commit (batchCalls ms) rfl hrep
    have c2 := countAct_success .Rollback (batchCalls ms) rfl hrep
    have hcount : countAct .Commit ([⟨.Lock, none⟩] ++ (batchCalls ms).map Event.success ++
        [⟨.Commit, (db.Commit s2).1⟩, ⟨.Unlock, none⟩]) = 1 := by
      simp [countAct_cons, countAct_append, countAct_nil, c1]
    refine ⟨.inr ⟨by simp [hc], ?_, hcount⟩, ?_, ?_, ?_⟩
    · simp [countAct_cons, countAct_append, countAct_nil, c2]
    · intro h0
      rw [hcount] at h0
      cases h0
    · intro _
      rw [har]
      simp [hc]
    · intro α obs _ _ he _
      rw [har] at he
      cases he
  · obtain ⟨pre, a, post, hsplit, rfl⟩ := replayCalls_some db _ _ _ _ _ hr
    have har : afterReplay db is.db ms =
        (pre.map Event.success ++ [⟨a, some e2⟩], s2, some e2) :=
      (replayCalls_batchCalls db is.db ms).symm.trans hr
    rw [hr] at h
    simp only [finish, Option.some.injEq, Prod.mk.injEq] at h
    obtain ⟨rfl, rfl, rfl⟩ := h
    have hpre : ∀ b ∈ pre, b.isReplay = true := fun b hb =>
      hrep b (by rw [hsplit]; simp [hb])
    have ha : a.isReplay = true := hrep a (by rw [hsplit]; simp)
    have c1 := countAct_success .Commit pre rfl hpre
    have c2 := countAct_success .Rollback pre rfl hpre
    have ha1 : a ≠ .Commit := by rintro rfl; cases ha
    have ha2 : a ≠ .Rollback := by rintro rfl; cases ha
    have hcount : countAct .Commit ([⟨.Lock, none⟩] ++
        (pre.map Event.success ++ [⟨a, some e2⟩]) ++
        [⟨.Rollback, (db.Rollback s2).1⟩, ⟨.Unlock, none⟩]) = 0 := by
      simp [countAct_cons, countAct_append, countAct_nil, c1, ha1]
    refine ⟨.inl ⟨⟨pre, a, post, (db.Rollback s2).1, hsplit, by simp⟩, ?_, hcount⟩,
      ?_, ?_, ?_⟩
    · simp [countAct_cons, countAct_append, countAct_nil, c2, ha2]
    · intro _
      rw [har]
      simp
    · intro h1
      rw [hcount] at h1
      cases h1
    · intro α obs hlaw hb _ hrb
      rw [har] at hrb
      simp only at hrb
      -- the calls were: a successful BeginTransaction, then the replay
      rcases hbt : db.BeginTransaction is.db with ⟨b0, s1⟩
      rw [hbt] at hb
      simp only at hb
      subst hb
      rcases hrp : engineReplay db s1 ms with ⟨t1, s3, r1⟩
      have har2 : afterReplay db is.db ms = (⟨.BeginTransaction, none⟩ :: t1, s3, r1) := by
        simp only [afterReplay, hbt, hrp]
      rw [har] at har2
      simp only [Prod.mk.injEq] at har2
      obtain ⟨-, rfl, -⟩ := har2
      exact hlaw is.db s1 s2 (db.Rollback s2).2 ms t1 r1 hbt hrp
        (Prod.ext hrb rfl)

end BatchTheorems

section IteratorLemmas

variable {σ ε : Type}

/-- The state facts every method call preserves or establishes: a recorded
error never goes away, never changes and leaves the cursor alone; a clean
terminal iterator stays so; an iterator with an error is not valid; and the
flag `valid` follows the results of `Next`. -/
theorem iter_call_facts (db : DB σ ε) (it : iter ε) (op : IterOp) :
    (∀ e, it.err = some e →
      (it.call db op).2.err = some e ∧ (it.call db op).2.enum = it.enum) ∧
    (it.err = none → it.closed = true →
      (it.call db op).2.err = none ∧ (it.call db op).2.closed = true) ∧
    ((it.err ≠ none → it.valid = false) →
      ((it.call db op).2.err ≠ none → (it.call db op).2.valid = false) ∧
      (it.call db op).2.valid = lastNextTrue it.valid [(it.call db op).1]) := by
  cases op
  case Next =>
    refine ⟨?_, ?_, ?_⟩
    · intro e he; simp [iter.call, iter.Next, he]
    · intro he hc; simp [iter.call, iter.Next, he, hc]
    · intro hinv
      simp only [iter.call, iter.Next]
      by_cases he : it.err = none
      · by_cases hc : it.closed = true
        · simp [he, hc, lastNextTrue]
        · rcases hen : it.enum with _ | en
          · simp [he, hc, hen, lastNextTrue]
          · rcases hn : db.EnumNext en with ⟨⟨k, v, err⟩, en1⟩
            by_cases h1 : err = some GoError.ioEOF
            · simp [he, hc, hen, hn, h1, iter.end_, lastNextTrue]
            · by_cases h2 : err = none
              · by_cases h3 : 0 < it.endKey.length ∧ 0 ≤ bytesCompare k it.endKey
                · simp [he, hc, hen, hn, h2, h3, iter.end_, lastNextTrue]
                · simp [he, hc, hen, hn, h2, h3, iter.end_, lastNextTrue]
              · simp [he, hc, hen, hn, h1, h2, iter.end_, lastNextTrue]
      · simp [he, hinv he, lastNextTrue]
  case Close =>
    refine ⟨?_, ?_, ?_⟩
    · intro e he; simp [iter.call, iter.Close, he]
    · intro he _; simp [iter.call, iter.Close, he]
    · intro hinv; simpa [iter.call, iter.Close, lastNextTrue] using hinv
  case KeyBytes =>
    refine ⟨?_, ?_, ?_⟩
    · intro e he; simp only [iter.call, iter.KeyBytes]; split <;> simp [he]
    · intro he hc; simp only [iter.call, iter.KeyBytes]; split <;> simp [he, hc]
    · intro hinv; simp only [iter.call, iter.KeyBytes]
      split <;> simpa [lastNextTrue] using hinv
  case ValueBytes =>
    refine ⟨?_, ?_, ?_⟩
    · intro e he; simp only [iter.call, iter.ValueBytes]; split <;> simp [he]
    · intro he hc; simp only [iter.call, iter.ValueBytes]; split <;> simp [he, hc]
    · intro hinv; simp only [iter.call, iter.ValueBytes]
      split <;> simpa [lastNextTrue] using hinv
  case Key =>
    refine ⟨?_, ?_, ?_⟩
    · intro e he; simp only [iter.call, iter.Key]; split <;> [skip; split] <;> simp [he]
    · intro he hc; simp only [iter.call, iter.Key]
      split <;> [skip; split] <;> simp [he, hc]
    · intro hinv; simp only [iter.call, iter.Key]
      split <;> [skip; split] <;> simpa [lastNextTrue] using hinv
  case Value =>
    refine ⟨?_, ?_, ?_⟩
    · intro e he; simp only [iter.call, iter.Value]; split <;> [skip; split] <;> simp [he]
    · intro he hc; simp only [iter.call, iter.Value]
      split <;> [skip; split] <;> simp [he, hc]
    · intro hinv; simp only [iter.call, iter.Value]
      split <;> [skip; split] <;> simpa [lastNextTrue] using hinv

theorem lastNextTrue_cons (acc : Bool) (r : IterRes) (rs : List IterRes) :
    lastNextTrue acc (r :: rs) = lastNextTrue (lastNextTrue acc [r]) rs := by
  cases r with
  | next o => cases o <;> simp [lastNextTrue]
  | close e => simp [lastNextTrue]
  | bytes o => simp [lastNextTrue]
  | str o => simp [lastNextTrue]

theorem iter_calls_err (db : DB σ ε) (e : GoError) (ops : List IterOp) :
    ∀ it : iter ε, it.err = some e →
      (iter.calls db it ops).2.err = some e ∧ (iter.calls db it ops).2.enum = it.enum := by
  induction ops with
  | nil => intro it he; simp [iter.calls, he]
  | cons op ops ih =>
    intro it he
    obtain ⟨h1, h2⟩ := (iter_call_facts db it op).1 e he
    obtain ⟨h3, h4⟩ := ih _ h1
    exact ⟨h3, h4.trans h2⟩

theorem iter_calls_clean (db : DB σ ε) (ops : List IterOp) :
    ∀ it : iter ε, it.err = none → it.closed = true →
      (iter.calls db it ops).2.err = none ∧ (iter.calls db it ops).2.closed = true := by
  induction ops with
  | nil => intro it he hc; simp [iter.calls, he, hc]
  | cons op ops ih =>
    intro it he hc
    obtain ⟨h1, h2⟩ := (iter_call_facts db it op).2.1 he hc
    exact ih _ h1 h2

theorem iter_calls_valid (db : DB σ ε) (ops : List IterOp) :
    ∀ it : iter ε, (it.err ≠ none → it.valid = false) →
      (iter.calls db it ops).2.valid = lastNextTrue it.valid (iter.calls db it ops).1 := by
  induction ops with
  | nil => intro it _; simp [iter.calls, lastNextTrue]
  | cons op ops ih =>
    intro it hinv
    obtain ⟨h1, h2⟩ := (iter_call_facts db it op).2.2 hinv
    simp only [iter.calls]
    rw [lastNextTrue_cons, ← h2]
    exact ih _ h1

end IteratorLemmas

section IteratorTheorems

variable {σ ε : Type}

/-- C7 (amended): on every iterator reached from `Find` by any sequence of
`Next`, `Close` and accessor calls, each of `KeyBytes`, `Key`, `ValueBytes`
and `Value` panics exactly when the most recent `Next` that returned did not
return true (none has returned yet, or it returned false), and returns
normally exactly when it returned true; `Close` does not change this. -/
theorem accessor_panics_iff_not_positioned (db : DB σ ε) (is : kvis σ)
    (start end_ : GoString) (ops : List IterOp) :
    (((iter.calls db (kvis.Find db is start end_).1 ops).2.KeyBytes.1 = .panic "not valid" ∧
      (iter.calls db (kvis.Find db is start end_).1 ops).2.Key.1 = .panic "not valid" ∧
      (iter.calls db (kvis.Find db is start end_).1 ops).2.ValueBytes.1 = .panic "not valid" ∧
      (iter.calls db (kvis.Find db is start end_).1 ops).2.Value.1 = .panic "not valid") ↔
      lastNextTrue false (iter.calls db (kvis.Find db is start end_).1 ops).1 = false) ∧
    (((∃ b, (iter.calls db (kvis.Find db is start end_).1 ops).2.KeyBytes.1 = .ok b) ∧
      (∃ b, (iter.calls db (kvis.Find db is start end_).1 ops).2.Key.1 = .ok b) ∧
      (∃ b, (iter.calls db (kvis.Find db is start end_).1 ops).2.ValueBytes.1 = .ok b) ∧
      (∃ b, (iter.calls db (kvis.Find db is start end_).1 ops).2.Value.1 = .ok b)) ↔
      lastNextTrue false (iter.calls db (kvis.Find db is start end_).1 ops).1 = true) := by
  have hv := iter_calls_valid db ops (kvis.Find db is start end_).1
    (by intro _; simp [kvis.Find])
  have h0 : (kvis.Find db is start end_).1.valid = false := by simp [kvis.Find]
  rw [h0] at hv
  rw [← hv]
  generalize (iter.calls db (kvis.Find db is start end_).1 ops).2 = it
  cases hval : it.valid
  · simp [iter.KeyBytes, iter.Key, iter.ValueBytes, iter.Value, hval]
  · simp only [iter.KeyBytes, iter.Key, iter.ValueBytes, iter.Value, hval]
    rcases it.skey with _ | sk <;> rcases it.sval with _ | sv <;> simp

/-- C5 (amended): after `Next` has returned false, calling `Next` again
panics when no error is recorded, which is the case exactly when that `Next`
ended on the cursor's end-of-data or on a key at or past the end bound; when
an error is recorded (a failed `Seek` or a cursor error other than
end-of-data) the further `Next` returns false again, without a panic and
without changing the iterator. -/
theorem next_after_false (db : DB σ ε) (it it1 : iter ε)
    (h : it.Next db = (.ok false, it1)) :
    (it1.err = none →
      it1.Next db = (.panic "Next called after Next returned value", it1)) ∧
    (it1.err ≠ none → it1.Next db = (.ok false, it1)) ∧
    (it1.err = none ↔
      it.err = none ∧ ∃ en, it.enum = some en ∧
        ((db.EnumNext en).1.2.2 = some GoError.ioEOF ∨
          ((db.EnumNext en).1.2.2 = none ∧ it.endKey.length > 0 ∧
            bytesCompare (db.EnumNext en).1.1 it.endKey ≥ 0))) := by
  have key : (it1.err ≠ none ∨ it1.closed = true) ∧
      (it1.err = none ↔
        it.err = none ∧ ∃ en, it.enum = some en ∧
          ((db.EnumNext en).1.2.2 = some GoError.ioEOF ∨
            ((db.EnumNext en).1.2.2 = none ∧ it.endKey.length > 0 ∧
              bytesCompare (db.EnumNext en).1.1 it.endKey ≥ 0))) := by
    simp only [iter.Next] at h
    by_cases he : it.err = none
    · by_cases hc : it.closed = true
      · simp [he, hc] at h
      · rcases hen : it.enum with _ | en
        · simp [he, hc, hen] at h
        · rcases hn : db.EnumNext en with ⟨⟨k, v, err⟩, en1⟩
          by_cases h1 : err = some GoError.ioEOF
          · simp only [he, hc, hen, hn, h1, iter.end_] at h
            simp only [ne_eq, not_true_eq_false, if_false, Bool.false_eq_true, if_true,
              Prod.mk.injEq, true_and] at h
            subst h
            simp [he, hen, hn, h1]
          · by_cases h2 : err = none
            · by_cases h3 : 0 < it.endKey.length ∧ 0 ≤ bytesCompare k it.endKey
              · simp only [he, hc, hen, hn, h2, iter.end_] at h
                simp [h3] at h
                subst h
                simp [he, hen, hn, h2, h3]
              · simp only [he, hc, hen, hn, h2, iter.end_] at h
                simp [h3] at h
            · simp only [he, hc, hen, hn, iter.end_] at h
              simp [h1, h2] at h
              subst h
              simp [he, hen, hn, h1, h2]
    · simp only [ne_eq, he, not_false_eq_true, if_true, Prod.mk.injEq, true_and] at h
      subst h
      simp [he]
  refine ⟨?_, ?_, key.2⟩
  · intro he
    rcases key.1 with h1 | h1
    · exact absurd he h1
    · simp [iter.Next, he, h1]
  · intro he
    simp [iter.Next, he]

/-- C6: the iterator's error is sticky and surfaces only through `Close`.
(a) When `Find`'s `Seek` fails with `e`, and (b) when a cursor advance fails
with an error `e` other than end-of-data, `Next` returns false, and after any
further calls `Next` still returns false without a panic and without touching
the cursor, and `Close` returns exactly `e`.  (c) When the advance ends on
end-of-data or on a key at or past the end bound, `Next` returns false and
every later `Close` returns nil.  (d) Once `Close` has been called, every
later `Close` returns the same result, whatever is called in between. -/
theorem iter_error_sticky (db : DB σ ε) :
    (∀ (is : kvis σ) (start end_ : GoString) (e : GoError) (ops : List IterOp),
      (db.Seek is.db start).1.2.2 = some e →
        (kvis.Find db is start end_).1.Next db = (.ok false, (kvis.Find db is start end_).1) ∧
        (iter.calls db (kvis.Find db is start end_).1 ops).2.Next db =
          (.ok false, (iter.calls db (kvis.Find db is start end_).1 ops).2) ∧
        (iter.calls db (kvis.Find db is start end_).1 ops).2.enum =
          (kvis.Find db is start end_).1.enum ∧
        (iter.calls db (kvis.Find db is start end_).1 ops).2.Close.1 = some e) ∧
    (∀ (it : iter ε) (en : ε) (e : GoError) (ops : List IterOp),
      it.err = none → it.closed = false → it.enum = some en →
      (db.EnumNext en).1.2.2 = some e → e ≠ GoError.ioEOF →
        (it.Next db).1 = .ok false ∧
        (iter.calls db (it.Next db).2 ops).2.Next db =
          (.ok false, (iter.calls db (it.Next db).2 ops).2) ∧
        (iter.calls db (it.Next db).2 ops).2.enum = (it.Next db).2.enum ∧
        (iter.calls db (it.Next db).2 ops).2.Close.1 = some e) ∧
    (∀ (it : iter ε) (en : ε) (ops : List IterOp),
      it.err = none → it.closed = false → it.enum = some en →
      ((db.EnumNext en).1.2.2 = some GoError.ioEOF ∨
        ((db.EnumNext en).1.2.2 = none ∧ it.endKey.length > 0 ∧
          bytesCompare (db.EnumNext en).1.1 it.endKey ≥ 0)) →
        (it.Next db).1 = .ok false ∧
        (iter.calls db (it.Next db).2 ops).2.Close.1 = none) ∧
    (∀ (it : iter ε) (ops : List IterOp),
      (iter.calls db it.Close.2 ops).2.Close.1 = it.Close.1) := by
  have hnext : ∀ (it : iter ε) (e : GoError), it.err = some e →
      it.Next db = (.ok false, it) := by
    intro it e he; simp [iter.Next, he]
  refine ⟨?_, ?_, ?_, ?_⟩
  · intro is start end_ e ops hs
    have he : (kvis.Find db is start end_).1.err = some e := by simp [kvis.Find, hs]
    obtain ⟨h1, h2⟩ := iter_calls_err db e ops _ he
    exact ⟨hnext _ e he, hnext _ e h1, h2, by simp [iter.Close, h1]⟩
  · intro it en e ops he hc hen hn hne
    rcases hx : db.EnumNext en with ⟨⟨k, v, err⟩, en1⟩
    rw [hx] at hn
    simp only at hn
    subst hn
    have hN : it.Next db = (.ok false,
        { it with skey := none, sval := none, key := k, val := v, enum := some en1,
                  err := some e, valid := false, closed := true }) := by
      simp [iter.Next, he, hc, hen, hx, hne, iter.end_]
    have he1 : (it.Next db).2.err = some e := by rw [hN]
    obtain ⟨h1, h2⟩ := iter_calls_err db e ops _ he1
    exact ⟨by rw [hN], hnext _ e h1, h2, by simp [iter.Close, h1]⟩
  · intro it en ops he hc hen hn
    rcases hx : db.EnumNext en with ⟨⟨k, v, err⟩, en1⟩
    rw [hx] at hn
    simp only at hn
    have hN : (it.Next db).1 = .ok false ∧ (it.Next db).2.err = none ∧
        (it.Next db).2.closed = true := by
      rcases hn with hn | ⟨hn, hb⟩
      · subst hn
        simp [iter.Next, he, hc, hen, hx, iter.end_]
      · subst hn
        simp [iter.Next, he, hc, hen, hx, iter.end_, hb]
    obtain ⟨h1, _⟩ := iter_calls_clean db ops _ hN.2.1 hN.2.2
    exact ⟨hN.1, by simp [iter.Close, h1]⟩
  · intro it ops
    rcases he : it.err with _ | e
    · have := iter_calls_clean db ops it.Close.2 (by simp [iter.Close, he])
        (by simp [iter.Close])
      show (iter.calls db it.Close.2 ops).2.err = it.err
      rw [this.1, he]
    · have := iter_calls_err db e ops it.Close.2 (by simp [iter.Close, he])
      show (iter.calls db it.Close.2 ops).2.err = it.err
      rw [this.1, he]

/-- C8: on an iterator positioned by a successful `Next`, whatever accessor
or `Close` calls were made since, two successive calls of `Key()` (of
`Value()`) return the same string, the bytes the key (value) had when `Next`
positioned the iterator, even when the key and value buffers are overwritten
between the two calls: the second call returns the string the first one
cached. -/
theorem key_value_memoized (db : DB σ ε) (it0 it : iter ε) (ops : List IterOp)
    (kbuf vbuf : Bytes)
    (h : it0.Next db = (.ok true, it)) (hops : IterOp.Next ∉ ops) :
    (iter.calls db it ops).2.Key.1 = .ok it.key ∧
    (iter.Key { (iter.calls db it ops).2.Key.2 with key := kbuf, val := vbuf }).1 =
      (iter.calls db it ops).2.Key.1 ∧
    (iter.calls db it ops).2.Value.1 = .ok it.val ∧
    (iter.Value { (iter.calls db it ops).2.Value.2 with key := kbuf, val := vbuf }).1 =
      (iter.calls db it ops).2.Value.1 := by
  -- what a successful Next leaves behind
  have hpos : it.valid = true ∧ it.skey = none ∧ it.sval = none := by
    simp only [iter.Next] at h
    by_cases he : it0.err = none
    · by_cases hc : it0.closed = true
      · simp [he, hc] at h
      · rcases hen : it0.enum with _ | en
        · simp [he, hc, hen] at h
        · rcases hn : db.EnumNext en with ⟨⟨k, v, err⟩, en1⟩
          by_cases h1 : err = some GoError.ioEOF
          · simp [he, hc, hen, hn, h1, iter.end_] at h
          · by_cases h2 : err = none
            · by_cases h3 : 0 < it0.endKey.length ∧ 0 ≤ bytesCompare k it0.endKey
              · simp [he, hc, hen, hn, h2, iter.end_, h3] at h
              · simp only [he, hc, hen, hn, h2, iter.end_] at h
                simp [h3] at h
                subst h
                simp
            · simp [he, hc, hen, hn, h1, h2, iter.end_] at h
    · simp [he] at h
  -- calls other than Next keep the position and only fill the caches
  have hinv : ∀ (ops : List IterOp) (j : iter ε), IterOp.Next ∉ ops →
      j.valid = true → j.key = it.key → j.val = it.val →
      (j.skey = none ∨ j.skey = some it.key) → (j.sval = none ∨ j.sval = some it.val) →
      (iter.calls db j ops).2.valid = true ∧
      (iter.calls db j ops).2.key = it.key ∧ (iter.calls db j ops).2.val = it.val ∧
      ((iter.calls db j ops).2.skey = none ∨ (iter.calls db j ops).2.skey = some it.key) ∧
      ((iter.calls db j ops).2.sval = none ∨ (iter.calls db j ops).2.sval = some it.val) := by
    intro ops
    induction ops with
    | nil => intro j _ h1 h2 h3 h4 h5; exact ⟨h1, h2, h3, h4, h5⟩
    | cons op ops ih =>
      intro j hn h1 h2 h3 h4 h5
      simp only [List.mem_cons, not_or] at hn
      simp only [iter.calls]
      apply ih _ hn.2
      all_goals
        cases op
        case Next => exact absurd rfl hn.1
        all_goals
          rcases h4 with h4 | h4 <;> rcases h5 with h5 | h5 <;>
            simp [iter.call, iter.Close, iter.KeyBytes, iter.Key, iter.ValueBytes,
              iter.Value, h1, h2, h3, h4, h5]
  obtain ⟨h1, h2, h3, h4, h5⟩ := hinv ops it hops hpos.1 rfl rfl (.inl hpos.2.1) (.inl hpos.2.2)
  generalize (iter.calls db it ops).2 = j at h1 h2 h3 h4 h5
  simp only [iter.Key, iter.Value, h1]
  rcases h4 with h4 | h4 <;> rcases h5 with h5 | h5 <;> simp [h1, h2, h3, h4, h5]

end IteratorTheorems

section RangeScan

/-- Draining an iterator whose cursor fails nowhere reads the upcoming
entries up to the first key at or past a non-empty end bound. -/
theorem drain_takeWhile (l : List (Bytes × Bytes)) :
    ∀ (fuel : Nat) (fs : List (Option GoError)) (it : iter RefEnum),
      l.length < fuel → (∀ f ∈ fs, f = none) →
      it.err = none → it.closed = false → it.enum = some ⟨l, fs⟩ →
      drain refDB fuel it =
        some (l.takeWhile fun kv =>
          !decide (it.endKey.length > 0 ∧ bytesCompare kv.1 it.endKey ≥ 0)) := by
  induction l with
  | nil =>
    intro fuel fs it hfuel hfs he hc hen
    obtain ⟨n, rfl⟩ : ∃ n, fuel = n + 1 := ⟨fuel - 1, by simp at hfuel; omega⟩
    have hnx : refDB.EnumNext ⟨[], fs⟩ = (([], [], some GoError.ioEOF), ⟨[], fs.tail⟩) := by
      cases fs with
      | nil => rfl
      | cons f fs => have := hfs f (by simp); subst this; rfl
    simp [drain, iter.Next, he, hc, hen, hnx, iter.end_]
  | cons x r ih =>
    intro fuel fs it hfuel hfs he hc hen
    obtain ⟨n, rfl⟩ : ∃ n, fuel = n + 1 := ⟨fuel - 1, by simp at hfuel; omega⟩
    obtain ⟨k, v⟩ := x
    have hnx : refDB.EnumNext ⟨(k, v) :: r, fs⟩ = ((k, v, none), ⟨r, fs.tail⟩) := by
      cases fs with
      | nil => rfl
      | cons f fs => have := hfs f (by simp); subst this; rfl
    have hfs1 : ∀ f ∈ fs.tail, f = none := fun f hf => hfs f (List.mem_of_mem_tail hf)
    by_cases hb : it.endKey.length > 0 ∧ bytesCompare k it.endKey ≥ 0
    · simp [drain, iter.Next, he, hc, hen, hnx, iter.end_, hb, List.takeWhile_cons]
    · have hb1 : ¬ (0 < it.endKey.length ∧ 0 ≤ bytesCompare k it.endKey) := hb
      have hrest : drain refDB n
          ⟨it.startKey, it.endKey, some ⟨r, fs.tail⟩, true, k, v, some k, some v, none, false⟩ =
          some (r.takeWhile fun kv =>
            !decide (it.endKey.length > 0 ∧ bytesCompare kv.1 it.endKey ≥ 0)) :=
        ih n fs.tail _ (by simp at hfuel; omega) hfs1 rfl rfl rfl
      have hR : ((k, v) :: r).takeWhile (fun kv =>
            !decide (it.endKey.length > 0 ∧ bytesCompare kv.1 it.endKey ≥ 0)) =
          (k, v) :: r.takeWhile (fun kv =>
            !decide (it.endKey.length > 0 ∧ bytesCompare kv.1 it.endKey ≥ 0)) := by
        simp only [List.takeWhile_cons, hb, decide_False, Bool.not_false, if_true]
      rw [hR]
      simp only [drain, iter.Next, he, hc, hen, hnx, iter.Key, iter.Value]
      simp only [ne_eq, not_true_eq_false, if_false, Bool.false_eq_true, reduceCtorEq, hb,
        Bool.not_true, hrest]

/-- C1: over engine content in byte-wise key order, when `Seek` does not
fail and the cursor reports no I/O error, the pairs `(Key(), Value())` read
after each `Next` that returns true, up to the first `Next` that returns
false, are exactly the stored entries with `start ≤ key` and (`end` empty or
`key < end`), in strictly ascending key order; an entry whose key equals the
bound `end` is never yielded (an empty `end` is no bound).  Any fuel above
the number of entries suffices for the scan to finish. -/
theorem find_yields_range (is : kvis RefDB) (start end_ : GoString) (fuel : Nat)
    (hd : KeyOrdered is.db.data) (hseek : is.db.fault = none)
    (hcur : ∀ f ∈ is.db.cursorFaults, f = none) (hfuel : is.db.data.length < fuel) :
    drain refDB fuel (kvis.Find refDB is start end_).1 =
      some (is.db.data.filter (inRange start end_)) ∧
    KeyOrdered (is.db.data.filter (inRange start end_)) ∧
    (end_ ≠ [] → ∀ kv ∈ is.db.data.filter (inRange start end_), kv.1 ≠ end_) := by
  refine ⟨?_, List.Pairwise.filter _ hd, ?_⟩
  · have hlen : (is.db.data.dropWhile fun kv => decide (bytesCompare kv.1 start < 0)).length
        < fuel :=
      lt_of_le_of_lt (List.Sublist.length_le (List.dropWhile_sublist _)) hfuel
    have := drain_takeWhile _ fuel is.db.cursorFaults (kvis.Find refDB is start end_).1
      hlen hcur (by simp [kvis.Find, refDB, hseek]) (by simp [kvis.Find])
      (by simp [kvis.Find, refDB, hseek])
    rw [this]
    have hek : (kvis.Find refDB is start end_).1.endKey = end_ := by simp [kvis.Find]
    rw [hek, takeWhile_dropWhile_eq_filter start end_ _ hd]
  · intro hne kv hkv
    simp only [List.mem_filter, inRange, decide_eq_true_eq] at hkv
    rintro rfl
    rcases hkv.2.2 with h | h
    · exact hne h
    · have h0 := (bytesCompare_eq_zero kv.1 kv.1).2 rfl
      omega

end RangeScan

section GetSet

/-- C4: `Get` returns the engine's lookup error unchanged; it returns the
stored value, also an empty one, with no error when the engine finds the key;
it returns `("", ErrNotFound)` when the engine finds nothing.  On the engine,
after a `Set(k, v)` that succeeded a `Get(k)` whose lookup does not fail
returns `(v, nil)` for every `v`, the empty string included, and a `Get`
whose lookup does not fail signals not-found exactly when the key has no
entry. -/
theorem get_not_found_iff_absent {σ ε : Type} (db : DB σ ε) (is : kvis σ)
    (key : GoString) :
    (∀ e, (db.Get is.db key).1.2 = some e → (kvis.Get db is key).1 = ([], some e)) ∧
    (∀ v, (db.Get is.db key).1 = (some v, none) → (kvis.Get db is key).1 = (v, none)) ∧
    ((db.Get is.db key).1 = (none, none) →
      (kvis.Get db is key).1 = ([], some GoError.ErrNotFound)) ∧
    (∀ (js js1 : kvis RefDB) (k v : GoString),
      kvis.Set refDB js k v = (none, js1) → js1.db.fault = none →
        (kvis.Get refDB js1 k).1 = (v, none)) ∧
    (∀ (js : kvis RefDB) (k : GoString), js.db.fault = none →
      ((kvis.Get refDB js k).1 = ([], some GoError.ErrNotFound) ↔
        refLookup k js.db.data = none)) := by
  refine ⟨?_, ?_, ?_, ?_, ?_⟩
  · intro e he
    rcases hg : db.Get is.db key with ⟨⟨val, err⟩, s⟩
    rw [hg] at he
    simp only at he
    subst he
    simp [kvis.Get, hg]
  · intro v hv
    rcases hg : db.Get is.db key with ⟨⟨val, err⟩, s⟩
    rw [hg] at hv
    simp only [Prod.mk.injEq] at hv
    obtain ⟨rfl, rfl⟩ := hv
    simp [kvis.Get, hg]
  · intro hv
    rcases hg : db.Get is.db key with ⟨⟨val, err⟩, s⟩
    rw [hg] at hv
    simp only [Prod.mk.injEq] at hv
    obtain ⟨rfl, rfl⟩ := hv
    simp [kvis.Get, hg]
  · intro js js1 k v hset hf
    simp only [kvis.Set, refDB] at hset
    rcases hf0 : js.db.fault with _ | e0
    · simp only [hf0, Prod.mk.injEq, true_and] at hset
      have hdata : js1.db.data = refInsert k v js.db.data := by rw [← hset]
      have hG : refDB.Get js1.db k = ((refLookup k js1.db.data, none), js1.db.tick) := by
        simp [refDB, hf]
      simp [kvis.Get, hG, hdata, refLookup_insert]
    · simp [hf0] at hset
  · intro js k hf
    have hG : refDB.Get js.db k = ((refLookup k js.db.data, none), js.db.tick) := by
      simp [refDB, hf]
    rcases hl : refLookup k js.db.data with _ | v
    · simp [kvis.Get, hG, hl]
    · simp [kvis.Get, hG, hl]

end GetSet

section Mutex

variable {σ ε : Type}

theorem holding_deferred (good : Bool) (r : Option GoError) :
    Holding (CommitBatch.deferred good r) := by
  cases good
  · exact .engine _ _ (by simp) (by simp) fun _ => .unlock _ fun _ => ⟨r, rfl⟩
  · exact .unlock _ fun _ => ⟨r, rfl⟩

theorem holding_loop (rest : Prog) (hrest : Holding rest) (ms : List Mutation) :
    Holding (CommitBatch.loop rest ms) := by
  induction ms with
  | nil => exact hrest
  | cons m ms ih =>
    rw [loop_cons]
    have hne : m.act ≠ .Lock ∧ m.act ≠ .Unlock := by
      unfold Mutation.act; split <;> simp
    refine .engine _ _ hne.1 hne.2 fun r => ?_
    cases r with
    | none => exact ih
    | some e => exact holding_deferred false _

theorem idle_prog (bm : BatchMutation) : Idle (CommitBatch.prog bm) := by
  cases bm with
  | foreign => exact .inl ⟨_, rfl⟩
  | batch ms =>
    refine .inr ⟨_, rfl, fun _ => ?_⟩
    refine .engine _ _ (by simp) (by simp) fun r => ?_
    cases r with
    | some e => exact holding_deferred false _
    | none =>
      exact holding_loop _
        (.engine _ _ (by simp) (by simp) fun err => holding_deferred true err) ms

theorem exclusive_cons (i : Nat) (ev : Event) (l : List (Nat × Event)) :
    Exclusive ((i, ev) :: l) ↔
      Exclusive l ∧ if ev.act = .Lock then holder l = none else holder l = some i :=
  Iff.rfl

theorem step_performed (db : DB σ ε) (c : Conc σ) (i : Nat) (a : Act)
    (k : Option GoError → Prog) (r : Option GoError) (is1 : kvis σ)
    (hp : c.progs[i]? = some (.call a k)) (hpf : perform db a c.is = some (r, is1)) :
    c.step db i =
      { is := is1, progs := c.progs.set i (k r), log := (i, ⟨a, r⟩) :: c.log } := by
  simp [Conc.step, hp, hpf]

theorem mutexInv_step (db : DB σ ε) (c : Conc σ) (i : Nat) (hc : MutexInv c) :
    MutexInv (c.step db i) := by
  obtain ⟨hmu, hprogs, hex⟩ := hc
  rcases hp : c.progs[i]? with _ | p
  · have : c.step db i = c := by simp [Conc.step, hp]
    rw [this]; exact ⟨hmu, hprogs, hex⟩
  · cases p with
    | ret e =>
      have : c.step db i = c := by simp [Conc.step, hp]
      rw [this]; exact ⟨hmu, hprogs, hex⟩
    | call a k =>
      rcases hpf : perform db a c.is with _ | ⟨r, is1⟩
      · have : c.step db i = c := by simp [Conc.step, hp, hpf]
        rw [this]; exact ⟨hmu, hprogs, hex⟩
      · rw [step_performed db c i a k r is1 hp hpf]
        unfold MutexInv
        simp only [exclusive_cons]
        have hi := hprogs i _ hp
        have hlen : i < c.progs.length := by
          rcases Nat.lt_or_ge i c.progs.length with h | h
          · exact h
          · rw [List.getElem?_eq_none h] at hp; cases hp
        by_cases hL : a = .Lock
        · -- entering: the mutex was free
          subst hL
          have hfree : c.is.txmu = false := by
            cases hx : c.is.txmu with
            | false => rfl
            | true => simp [perform, hx] at hpf
          have hnone : holder c.log = none := by
            rw [hfree] at hmu
            cases hh : holder c.log with
            | none => rfl
            | some j => rw [hh] at hmu; simp at hmu
          simp only [perform, hfree, Bool.false_eq_true, if_false, Option.some.injEq,
            Prod.mk.injEq] at hpf
          obtain ⟨rfl, rfl⟩ := hpf
          rw [hnone] at hi
          simp only [reduceCtorEq, if_false] at hi
          rcases hi with ⟨e, he⟩ | ⟨k1, hk1, hH⟩
          · cases he
          · simp only [Prog.call.injEq, true_and] at hk1
            subst hk1
            refine ⟨by simp [holder], ?_, ⟨hex, by simp [hnone]⟩⟩
            intro j p hj
            simp only [holder, Option.some.injEq]
            rw [List.getElem?_set] at hj
            by_cases hij : i = j
            · subst hij
              simp only [if_true, hlen, Option.some.injEq] at hj
              subst hj
              simpa using hH none
            · simp only [hij, if_false] at hj ⊢
              have := hprogs j p hj
              rw [hnone] at this
              simpa using this
        · -- any other effect: the goroutine is inside the critical section
          have hhold : holder c.log = some i := by
            by_contra hne
            simp only [hne, if_false] at hi
            rcases hi with ⟨e, he⟩ | ⟨k1, hk1, _⟩
            · cases he
            · simp only [Prog.call.injEq] at hk1
              exact hL hk1.1
          simp only [hhold, if_true] at hi
          by_cases hU : a = .Unlock
          · subst hU
            cases hi with
            | engine _ _ _ h2 _ => exact absurd rfl h2
            | unlock _ hk =>
              have hlocked : c.is.txmu = true := by rw [hmu, hhold]; rfl
              simp only [perform, hlocked, if_true, Option.some.injEq, Prod.mk.injEq] at hpf
              obtain ⟨rfl, rfl⟩ := hpf
              refine ⟨by simp [holder], ?_, ⟨hex, by simp [hhold]⟩⟩
              intro j p hj
              simp only [holder, reduceCtorEq, if_false]
              rw [List.getElem?_set] at hj
              by_cases hij : i = j
              · subst hij
                simp only [if_true, hlen, Option.some.injEq] at hj
                subst hj
                exact .inl (hk none)
              · simp only [hij, if_false] at hj
                have := hprogs j p hj
                rw [hhold] at this
                simpa [hij] using this
          · cases hi with
            | unlock _ _ => exact absurd rfl hU
            | engine _ _ _ _ hk =>
              rw [perform_engine db a c.is hL hU] at hpf
              simp only [Option.some.injEq, Prod.mk.injEq] at hpf
              obtain ⟨rfl, rfl⟩ := hpf
              have hh : holder ((i, (⟨a, (engineCall db a c.is.db).1⟩ : Event)) :: c.log) =
                  holder c.log := by
                cases a <;> simp_all [holder]
              refine ⟨by rw [hh]; exact hmu, ?_, ⟨hex, by simp [hL, hhold]⟩⟩
              intro j p hj
              rw [hh, hhold]
              rw [List.getElem?_set] at hj
              by_cases hij : i = j
              · subst hij
                simp only [if_true, hlen, Option.some.injEq] at hj
                subst hj
                simpa using hk _
              · simp only [hij, if_false] at hj
                have := hprogs j p hj
                rw [hhold] at this
                exact this

theorem mutexInv_exec (db : DB σ ε) (sched : List Nat) :
    ∀ c : Conc σ, MutexInv c → MutexInv (c.exec db sched) := by
  induction sched with
  | nil => intro c hc; exact hc
  | cons i sched ih =>
    intro c hc
    exact ih _ (mutexInv_step db c i hc)

/-- C9: in the trace of a `CommitBatch` call, `Lock` comes first, then
`BeginTransaction` and the other engine calls, and `Unlock` comes last,
exactly once, on every exit path, leaving the mutex free; and when any number
of goroutines run `CommitBatch` on one store under any schedule, every engine
call is made by the goroutine that holds the mutex at that moment, a `Lock`
is only taken while the mutex is free, and an `Unlock` is only made by the
holder: the engine calls of two `CommitBatch` calls never interleave. -/
theorem commitBatch_mutex_held (db : DB σ ε) (is : kvis σ) (h : is.txmu = false) :
    (∀ ms : List Mutation, ∃ r is1 r0 mid,
      kvis.CommitBatch db is (.batch ms) =
        some (r, is1,
          ⟨.Lock, none⟩ :: ⟨.BeginTransaction, r0⟩ :: mid ++ [⟨.Unlock, none⟩]) ∧
      is1.txmu = false ∧
      ∀ ev ∈ mid, ev.act ≠ .Lock ∧ ev.act ≠ .Unlock) ∧
    (∀ (bms : List BatchMutation) (sched : List Nat),
      Exclusive (Conc.exec db ⟨is, bms.map CommitBatch.prog, []⟩ sched).log) := by
  constructor
  · intro ms
    rw [commitBatch_eq db is ms h]
    have hrep : ∀ m ∈ ms, m.act ≠ .Lock ∧ m.act ≠ .Unlock := by
      intro m _; unfold Mutation.act; split <;> simp
    simp only [batchCalls, replayCalls]
    rcases hb : engineCall db .BeginTransaction is.db with ⟨_ | e, s1⟩
    · rcases hr : replayCalls db s1 (ms.map Mutation.act) with ⟨t, s2, r1⟩
      have hacts := replayCalls_acts db _ _ _ _ _ hr
      have hmid : ∀ ev ∈ t, ev.act ≠ .Lock ∧ ev.act ≠ .Unlock := by
        intro ev hev
        have := hacts ev hev
        simp only [List.mem_map] at this
        obtain ⟨m, hm, hma⟩ := this
        rw [← hma]; exact hrep m hm
      rcases r1 with _ | e
      · refine ⟨(db.Commit s2).1, ⟨is.path, (db.Commit s2).2, false⟩, none,
          t ++ [⟨.Commit, (db.Commit s2).1⟩], by simp [finish, hr], rfl, ?_⟩
        intro ev hev
        simp only [List.mem_append, List.mem_singleton] at hev
        rcases hev with hev | rfl
        · exact hmid ev hev
        · simp
      · refine ⟨some e, ⟨is.path, (db.Rollback s2).2, false⟩, none,
          t ++ [⟨.Rollback, (db.Rollback s2).1⟩], by simp [finish, hr], rfl, ?_⟩
        intro ev hev
        simp only [List.mem_append, List.mem_singleton] at hev
        rcases hev with hev | rfl
        · exact hmid ev hev
        · simp
    · refine ⟨some e, ⟨is.path, (db.Rollback s1).2, false⟩, some e,
        [⟨.Rollback, (db.Rollback s1).1⟩], by simp [finish], rfl, ?_⟩
      intro ev hev
      simp only [List.mem_singleton] at hev
      subst hev
      simp
  · intro bms sched
    have h0 : MutexInv (⟨is, bms.map CommitBatch.prog, []⟩ : Conc σ) := by
      refine ⟨by simp [holder, h], ?_, trivial⟩
      intro i p hp
      simp only [holder, reduceCtorEq, if_false]
      rw [List.getElem?_map] at hp
      rcases hb : bms[i]? with _ | bm
      · simp [hb] at hp
      · simp only [hb, Option.map_some', Option.some.injEq] at hp
        subst hp
        exact idle_prog bm
    exact (mutexInv_exec db sched _ h0).2.2

end Mutex

section Instances

/-- C1, instance: over `{a:1, b:2, c:3, d:4}`, `Find("b","d")` yields
`[(b,2),(c,3)]` and `Find("b","")` yields `[(b,2),(c,3),(d,4)]`. -/
theorem find_yields_range_witness :
    KeyOrdered (refStore abcd).db.data ∧
    drain refDB 5 (kvis.Find refDB (refStore abcd) [98] [100]).1 =
      some [([98], [50]), ([99], [51])] ∧
    drain refDB 5 (kvis.Find refDB (refStore abcd) [98] []).1 =
      some [([98], [50]), ([99], [51]), ([100], [52])] :=
  ⟨by unfold KeyOrdered; decide,
   (find_yields_range (refStore abcd) [98] [100] 5 (by unfold KeyOrdered; decide) rfl
      (by decide) (by decide)).1,
   (find_yields_range (refStore abcd) [98] [] 5 (by unfold KeyOrdered; decide) rfl
      (by decide) (by decide)).1⟩

/-- C2, counterexample to the claim as stated: when `Commit` fails (the
fifth engine call here), `CommitBatch` returns that error without any
`Rollback`, and the batch's writes stay in the engine. -/
theorem commitBatch_commit_failure_no_rollback :
    kvis.CommitBatch refDB (scriptedStore [none, none, none, none, some (.engine 7)])
        (.batch exampleBatch) =
      some (some (.engine 7),
        ⟨"index.kv", ⟨[([97], [50])], [[([98], [57])]], [], []⟩, false⟩,
        [⟨.Lock, none⟩, ⟨.BeginTransaction, none⟩, ⟨.Set [97] [49], none⟩,
         ⟨.Delete [98], none⟩, ⟨.Set [97] [50], none⟩, ⟨.Commit, some (.engine 7)⟩,
         ⟨.Unlock, none⟩]) := by
  decide

/-- C2, instance: the `Delete` of the example batch fails; `Rollback`
follows it, the engine is left as `Rollback` left it, and the content is
`{b:9}` as before. -/
theorem commitBatch_failure_rollback_witness :
    kvis.CommitBatch refDB (scriptedStore [none, none, some (.engine 7)])
        (.batch exampleBatch) =
      some (some (.engine 7), ⟨"index.kv", ⟨[([98], [57])], [], [], []⟩, false⟩,
        rolledBackTrace) ∧
    RollbackUndoes refDB RefDB.data ∧
    (⟨"index.kv", ⟨[([98], [57])], [], [], []⟩, false⟩ : kvis RefDB).db.data =
      (scriptedStore [none, none, some (.engine 7)]).db.data :=
  ⟨by decide, refDB_rollbackUndoes,
   (commitBatch_failure_rollback refDB (scriptedStore [none, none, some (.engine 7)])
      ⟨"index.kv", ⟨[([98], [57])], [], [], []⟩, false⟩ exampleBatch (.engine 7)
      rolledBackTrace (by decide)).2.2.2 RefDB.data refDB_rollbackUndoes
      (by decide) (by decide) (by decide)⟩

/-- C4, instance: after `Set(a, "")` the lookup of `a` returns the empty
value with no error, while the lookup of the absent `c` signals not-found. -/
theorem get_not_found_iff_absent_witness :
    kvis.Set refDB (refStore abcd) [97] [] =
      (none, refStore [([97], []), ([98], [50]), ([99], [51]), ([100], [52])]) ∧
    (kvis.Get refDB (refStore [([97], []), ([98], [50]), ([99], [51]), ([100], [52])])
      [97]).1 = ([], none) ∧
    (kvis.Get refDB (scriptedStore []) [99]).1 = ([], some GoError.ErrNotFound) :=
  ⟨by decide,
   (get_not_found_iff_absent refDB (refStore abcd) [97]).2.2.2.1 (refStore abcd) _ [97] []
      (by decide) (by decide),
   ((get_not_found_iff_absent refDB (refStore abcd) [97]).2.2.2.2 (scriptedStore []) [99]
      (by decide)).2 (by decide)⟩

/-- C5, counterexample to the claim as stated: when `Seek` failed, `Next`
returns false and the next `Next` returns false again instead of
panicking. -/
theorem next_after_failed_seek_returns_false :
    (iter.calls refDB (kvis.Find refDB (scriptedStore [some (.engine 5)]) [] []).1
        [.Next, .Next]).1 =
      [.next (.ok false), .next (.ok false)] := by
  decide

/-- C5, instance: over the empty content the first `Next` returns false on
end-of-data and the second one panics. -/
theorem next_after_false_witness :
    (kvis.Find refDB (refStore []) [] []).1.Next refDB =
      (.ok false, ⟨[], [], some ⟨[], []⟩, false, [], [], none, none, none, true⟩) ∧
    iter.Next refDB ⟨[], [], some ⟨[], []⟩, false, [], [], none, none, none, true⟩ =
      (.panic "Next called after Next returned value",
        ⟨[], [], some ⟨[], []⟩, false, [], [], none, none, none, true⟩) :=
  ⟨by decide,
   (next_after_false refDB (kvis.Find refDB (refStore []) [] []).1 _ (by decide)).1 rfl⟩

/-- C6, instance: after a failed `Seek`, `Close` returns the error of `Seek`
however often it is called; after a scan that ended on end-of-data it
returns nil. -/
theorem iter_error_sticky_witness :
    (refDB.Seek (scriptedStore [some (.engine 5)]).db []).1.2.2 = some (.engine 5) ∧
    (iter.calls refDB (kvis.Find refDB (scriptedStore [some (.engine 5)]) [] []).1
      [.Next, .Close, .Next]).2.Close.1 = some (.engine 5) ∧
    (iter.calls refDB
      (iter.Next refDB (kvis.Find refDB (refStore []) [] []).1).2 [.Close]).2.Close.1 = none :=
  ⟨by decide,
   ((iter_error_sticky refDB).1 (scriptedStore [some (.engine 5)]) [] [] (.engine 5)
      [.Next, .Close, .Next] (by decide)).2.2.2,
   ((iter_error_sticky refDB).2.2.1 (kvis.Find refDB (refStore []) [] []).1 ⟨[], []⟩
      [.Close] rfl rfl rfl (.inl (by decide))).2⟩

/-- C7, counterexample to the claim as stated: after a `Next` that returned
true, `Close` does not invalidate the position, and all four accessors still
return normally. -/
theorem accessors_return_after_close :
    (iter.calls refDB (kvis.Find refDB (refStore abcd) [98] [100]).1
        [.Next, .Close, .KeyBytes, .Key, .ValueBytes, .Value]).1 =
      [.next (.ok true), .close none, .bytes (.ok [98]), .str (.ok [98]),
       .bytes (.ok [50]), .str (.ok [50])] := by
  decide

/-- C8, instance: positioned on `(b, 2)`, `Key()` and `Value()` return `b`
and `2` again after both buffers were overwritten. -/
theorem key_value_memoized_witness :
    iter.Next refDB (kvis.Find refDB (refStore abcd) [98] [100]).1 =
      (.ok true,
        ⟨[98], [100], some ⟨[([99], [51]), ([100], [52])], []⟩, true, [98], [50], none,
          none, none, false⟩) ∧
    (iter.Key
      { (iter.calls refDB
          (⟨[98], [100], some ⟨[([99], [51]), ([100], [52])], []⟩, true, [98], [50], none,
            none, none, false⟩ : iter RefEnum) [.ValueBytes]).2.Key.2 with
        key := [0], val := [0] }).1 = .ok [98] :=
  ⟨by decide,
   ((key_value_memoized refDB (kvis.Find refDB (refStore abcd) [98] [100]).1 _
      [.ValueBytes] [0] [0] (by decide) (by decide)).2.1).trans
    (key_value_memoized refDB (kvis.Find refDB (refStore abcd) [98] [100]).1 _
      [.ValueBytes] [0] [0] (by decide) (by decide)).1⟩

/-- C9, instance: two goroutines commit batches on one store; under this
schedule the second one enters only after the first one has left. -/
theorem commitBatch_mutex_held_witness :
    (refStore []).txmu = false ∧
    Exclusive (Conc.exec refDB
      ⟨refStore [],
        [BatchMutation.batch exampleBatch, BeginBatch].map CommitBatch.prog,
        []⟩ [0, 1, 0, 1, 0, 0, 1, 0, 0, 1, 0, 1, 1, 1, 1]).log ∧
    (Conc.exec refDB
      ⟨refStore [],
        [BatchMutation.batch exampleBatch, BeginBatch].map CommitBatch.prog,
        []⟩ [0, 1, 0, 1, 0, 0, 1, 0, 0, 1, 0, 1, 1, 1, 1]).log.reverse =
      [(0, ⟨.Lock, none⟩), (0, ⟨.BeginTransaction, none⟩), (0, ⟨.Set [97] [49], none⟩),
       (0, ⟨.Delete [98], none⟩), (0, ⟨.Set [97] [50], none⟩), (0, ⟨.Commit, none⟩),
       (0, ⟨.Unlock, none⟩), (1, ⟨.Lock, none⟩), (1, ⟨.BeginTransaction, none⟩),
       (1, ⟨.Commit, none⟩), (1, ⟨.Unlock, none⟩)] := by
  have h : ∀ (bms : List BatchMutation) (sched : List Nat),
      Exclusive (Conc.exec refDB ⟨refStore [], bms.map CommitBatch.prog, []⟩ sched).log :=
    (commitBatch_mutex_held refDB (refStore []) rfl).2
  exact ⟨rfl, h _ _, by decide⟩

/-- C10, instance: the example batch with a failing `Delete` makes one
`Rollback` and no `Commit`, returns the error of the `Delete`, and leaves the
engine as `Rollback` left it. -/
theorem commitBatch_commit_xor_rollback_witness :
    (scriptedStore [none, none, some (.engine 7)]).txmu = false ∧
    ∃ r is1 tr,
      kvis.CommitBatch refDB (scriptedStore [none, none, some (.engine 7)])
        (.batch exampleBatch) = some (r, is1, tr) ∧
      countAct .Commit tr + countAct .Rollback tr = 1 ∧
      countAct .Rollback tr = 1 ∧ countAct .Commit tr = 0 ∧
      r = some (.engine 7) ∧
      is1 = ⟨"index.kv", ⟨[([98], [57])], [], [], []⟩, false⟩ := by
  obtain ⟨r, is1, tr, h1, h2, -, -, -, -, -, h3⟩ :=
    (commitBatch_commit_xor_rollback refDB (scriptedStore [none, none, some (.engine 7)])
      exampleBatch rfl).1
  have hc : kvis.CommitBatch refDB (scriptedStore [none, none, some (.engine 7)])
      (.batch exampleBatch) =
      some (some (.engine 7), ⟨"index.kv", ⟨[([98], [57])], [], [], []⟩, false⟩,
        rolledBackTrace) := by decide
  rw [hc] at h1
  simp only [Option.some.injEq, Prod.mk.injEq] at h1
  obtain ⟨rfl, rfl, rfl⟩ := h1
  have h4 := h3 (.engine 7) (by decide)
  exact ⟨rfl, _, _, _, hc, h2, by decide, by decide, h4.1.symm ▸ rfl, rfl⟩

end Instances


end Kvfile

